import Mathlib

/-!
Verification of the Track entity of the DIVE annotation tool
(client `track.ts`): the frame-indexed feature store, interpolation,
keyframe/bounds invariants, bounds maintenance, split/merge, serialization
and the notification contract.

Conventions of the shallow embedding:
* JS numbers that hold frame indices are `Nat` (negative intermediates are
  made explicit as `Int` where the code can produce them);
* fractional values (confidences, bounds, blend weights) are `Rat`;
* `Track.begin` / `Track.end` are `WithTop Nat` (`⊤` models `Infinity`);
* the sparse feature array is `List (Option Feature)` (a JS array with holes);
* optional JS fields are `Option`; JS truthiness of an optional boolean is
  `truthy`;
* operations that can `throw` return `Except`; mutating operations carry the
  state at the moment of the throw in the error, so that partially applied
  mutations stay observable;
* the notifier callback is modelled by returning the list of emitted events;
  `revision` is a plain counter field.
-/

set_option maxRecDepth 4000

/-- JS truthiness of an optional boolean field. -/
def truthy (o : Option Bool) : Bool :=
  o.getD false

/-- JS truthiness of an optional string (`undefined` and the empty string are falsy). -/
def strFalsy (o : Option String) : Bool :=
  match o with
  | none => true
  | some s => s == ""

/-- Spread of one optional field: `{...old, ...new}` lets a present field of `new` win. -/
def jsField (n o : Option α) : Option α :=
  match n with
  | some v => some v
  | none => o

/-- JS `x || y` for an optional number `x` (both `undefined` and `0` are falsy). -/
def jsOrNat (x : Option Nat) (y : WithTop Nat) : WithTop Nat :=
  match x with
  | some v => if v = 0 then y else (v : WithTop Nat)
  | none => y

/-- JS `x || y` for an optional rational (both `undefined` and `0` are falsy). -/
def jsOrRat (x : Option Rat) (y : Rat) : Rat :=
  match x with
  | some v => if v = 0 then y else v
  | none => y

/-- `Math.round`: round half toward positive infinity. -/
def jsRound (q : Rat) : Rat :=
  ((q + mkRat 1 2).floor : Int)

/-- Axis-aligned box `[x1, y1, x2, y2]` (type `RectBounds` of `utils.ts`). -/
structure RectBounds where
  p0 : Rat
  p1 : Rat
  p2 : Rat
  p3 : Rat
deriving DecidableEq, Repr

/-- Component-wise `Math.round` of bounds, as done by `setFeature`. -/
def roundBounds (b : RectBounds) : RectBounds :=
  ⟨jsRound b.p0, jsRound b.p1, jsRound b.p2, jsRound b.p3⟩

/-- A JSON-ish attribute value (`StringKeyObject` entries); `null` is distinct
from an absent key. -/
inductive AttrVal where
  | str (s : String)
  | num (q : Rat)
  | bool (b : Bool)
  | null
deriving DecidableEq, Repr

/-- A string-keyed JS object, as an insertion-ordered association list. -/
abbrev Attrs := List (String × AttrVal)

/-- Read `obj[key]` (`none` = `undefined`). -/
def attrGet (l : Attrs) (key : String) : Option AttrVal :=
  (l.find? (fun p => p.1 == key)).map (·.2)

/-- Write `obj[key] = v`: replace in place when the key exists, else append. -/
def attrSet (l : Attrs) (key : String) (v : AttrVal) : Attrs :=
  match l.findIdx? (fun p => p.1 == key) with
  | some i => l.set i (key, v)
  | none => l ++ [(key, v)]

/-- One auxiliary GeoJSON shape of a feature: its optional `properties.key`
and its `geometry.type` tag. -/
structure GeoFeature where
  key : Option String
  geoType : String
deriving DecidableEq, Repr

/-- Frame feature (`interface Feature` of `track.ts`). -/
structure Feature where
  frame : Nat
  flick : Option Rat := none
  interpolate : Option Bool := none
  keyframe : Option Bool := none
  bounds : Option RectBounds := none
  geometry : Option (List GeoFeature) := none
  fishLength : Option Rat := none
  attributes : Option Attrs := none
  head : Option (Rat × Rat) := none
  tail : Option (Rat × Rat) := none
deriving DecidableEq, Repr

/-- Shallow object spread `{...old, ...new}` on features (the `frame` field is
mandatory, so `new.frame` always wins). -/
def Feature.spread (o n : Feature) : Feature where
  frame := n.frame
  flick := jsField n.flick o.flick
  interpolate := jsField n.interpolate o.interpolate
  keyframe := jsField n.keyframe o.keyframe
  bounds := jsField n.bounds o.bounds
  geometry := jsField n.geometry o.geometry
  fishLength := jsField n.fishLength o.fishLength
  attributes := jsField n.attributes o.attributes
  head := jsField n.head o.head
  tail := jsField n.tail o.tail

/-- Read index `i` of a sparse JS array (`undefined` for holes and out of range). -/
def sparseGet (l : List (Option α)) (i : Nat) : Option α :=
  (l.getD i none)

/-- Read a sparse JS array at a possibly-infinite index (`arr[Infinity]` is `undefined`). -/
def sparseGetW (l : List (Option α)) (i : WithTop Nat) : Option α :=
  match i with
  | ⊤ => none
  | (n : Nat) => sparseGet l n

/-- Assign index `i` of a sparse JS array, extending with holes when `i` is
past the end. -/
def sparseSet (l : List (Option α)) (i : Nat) (v : Option α) : List (Option α) :=
  if i < l.length then l.set i v
  else l ++ List.replicate (i - l.length) none ++ [v]

/-- JS `delete arr[i]`: punch a hole; never extends the array. -/
def sparseDelete (l : List (Option α)) (i : Nat) : List (Option α) :=
  if i < l.length then l.set i none else l

/-- Compact a sparse array to the list of its present elements, in index order. -/
def condense (l : List (Option α)) : List α :=
  l.filterMap id

/-- The sorted list of indices of present elements of a sparse array. -/
def presentIndices (l : List (Option α)) : List Nat :=
  (List.range l.length).filter (fun i => (sparseGet l i).isSome)

/-- JS `arr.slice(start, stop)` with a possibly-infinite start
(`slice(Infinity, x)` is empty). -/
def jsSlice (l : List (Option α)) (start : WithTop Nat) (stop : Nat) : List (Option α) :=
  match start with
  | ⊤ => []
  | (s : Nat) => (l.drop s).take (stop - s)

/-- Modelled from the spec: the list utilities (`listUtils.ts`) are not part
of the provided sources.  Per spec sections 2 and 9 the keyframe index is an
ordered, duplicate-free list with sorted insert.  Inserting an element that is
already present leaves the list unchanged. -/
def listInsert (l : List Nat) (v : Nat) : List Nat :=
  if v ∈ l then l else l.takeWhile (· < v) ++ v :: l.dropWhile (· < v)

/-- Modelled from the spec: removal from the ordered duplicate-free keyframe
index (`listUtils.ts`, not in the provided sources). -/
def listRemove (l : List Nat) (v : Nat) : List Nat :=
  l.erase v

/-- Modelled from the spec: a standard binary search over the sorted index
returning the insertion index of `v` (spec section 9); on a sorted list this
is the number of elements below `v`. -/
def binarySearch (l : List Nat) (v : Nat) : Nat :=
  l.countP (· < v)

/-- Modelled from the spec: derive the (predecessor, successor) pair from
positions `index-1` and `index` around the insertion point, `null` when either
side is missing (spec sections 4.2 and 9). -/
def getSurroundingElements (l : List Nat) (p : Nat) : Option (Nat × Nat) :=
  if p = 0 then none
  else
    match l[p - 1]?, l[p]? with
    | some a, some b => some (a, b)
    | _, _ => none

/-- A `(type-label, confidence)` pair. -/
abbrev ConfidencePair := String × Rat

/-- Change notifications: `'feature'` events carry the previous feature, which
can be a real object, the empty object `{}`, or `undefined`. -/
inductive JsFeatureVal where
  | undef
  | empty
  | obj (f : Feature)
deriving DecidableEq, Repr

/-- Payload (`oldValue`) of one notifier invocation. -/
inductive EventPayload where
  | feature (old : JsFeatureVal)
  | bounds (oldBegin : WithTop Nat) (oldEnd : WithTop Nat)
  | confidencePairs (old : List ConfidencePair)
  | attributes (key : String) (oldValue : Option AttrVal)
deriving DecidableEq, Repr

/-- One notifier invocation `{event, oldValue}` (the `track` reference is the
returned state). -/
structure Event where
  name : String
  payload : EventPayload
deriving DecidableEq, Repr

/-- The Track state (`class Track` of `track.ts`).  The notifier callback is
modelled by the event lists returned from mutating operations. -/
structure Track where
  trackId : Nat
  meta : Attrs
  attributes : Attrs
  confidencePairs : List ConfidencePair
  features : List (Option Feature)
  featureIndex : List Nat
  begin : WithTop Nat
  «end» : WithTop Nat
  revision : Nat
deriving DecidableEq, Repr

/-- The transport shape (`interface TrackData`). -/
structure TrackData where
  trackId : Nat
  meta : Attrs
  attributes : Attrs
  confidencePairs : List ConfidencePair
  features : List (Option Feature)
  begin : WithTop Nat
  «end» : WithTop Nat
deriving DecidableEq, Repr

/-- Constructor parameters (`interface TrackParams`), with their defaults. -/
structure TrackParams where
  meta : Attrs := []
  begin : WithTop Nat := ⊤
  «end» : WithTop Nat := ((0 : Nat) : WithTop Nat)
  features : List (Option Feature) := []
  confidencePairs : List ConfidencePair := []
  attributes : Attrs := []
deriving Repr

/-- `get length()`: `end - begin + 1`; `none` models the `-Infinity` produced
by the empty sentinel (it compares unequal to every integer, as in JS). -/
def Track.length (t : Track) : Option Int :=
  match t.begin, t.«end» with
  | (b : Nat), (e : Nat) => some ((e : Int) - (b : Int) + 1)
  | _, _ => none

/-- `isInitialized()`: at least one keyframe has been added. -/
def Track.isInitialized (t : Track) : Bool :=
  t.featureIndex.length > 0

/-- `sanityCheckFeatures`: the first present element of the sparse array must
sit at the index equal to its own frame number. -/
def sanityCheckFeatures (features : List (Option Feature)) : Except String Unit :=
  match features.enum.find? (fun p => p.2.isSome) with
  | some (i, some f) =>
      if f.frame ≠ i then
        .error "features must be initialized with sparse array. Use Track.fromJSON if you want to initialize with features."
      else .ok ()
  | _ => .ok ()

/-- `repopulateInterpolatedFrames`: rebuild the keyframe index from scratch,
failing when a present feature has `keyframe` XOR `bounds`. -/
def repopulateInterpolatedFrames (features : List (Option Feature)) :
    Except String (List Nat) :=
  features.foldlM (fun idx of =>
    match of with
    | none => .ok idx
    | some f =>
      let idx2 := if truthy f.keyframe && f.bounds.isSome then idx ++ [f.frame] else idx
      if truthy f.keyframe != f.bounds.isSome then .error "keyframe must not XOR bounds"
      else .ok idx2) []

/-- The class constructor `new Track(trackId, params)`. -/
def Track.construct (trackId : Nat) (p : TrackParams) : Except String Track :=
  match sanityCheckFeatures p.features with
  | .error e => .error e
  | .ok _ =>
    match repopulateInterpolatedFrames p.features with
    | .error e => .error e
    | .ok featureIndex =>
      .ok { trackId := trackId
            meta := p.meta
            attributes := p.attributes
            confidencePairs := p.confidencePairs
            features := p.features
            featureIndex := featureIndex
            begin := p.begin
            «end» := p.«end»
            revision := 1 }

/-- `notify`: bump `revision` and invoke the notifier, but only after the
first keyframe exists. -/
def Track.notify (t : Track) (e : Event) : Track × List Event :=
  if t.isInitialized then ({ t with revision := t.revision + 1 }, [e])
  else (t, [])

/-- `getNextKeyframe(frame)`: first present feature scanning forward from
`frame` (inclusive); returns its `frame` field. -/
def Track.getNextKeyframe (t : Track) (frame : Nat) : Option Nat :=
  (((t.features.drop frame).filterMap id).head?).map (·.frame)

/-- `getPreviousKeyframe(frame)`: first present feature scanning backward from
`frame` (inclusive); `frame` is an `Int` because callers pass `end - 1`,
which is `-1` on the empty sentinel (then `slice(0, 0)` is empty). -/
def Track.getPreviousKeyframe (t : Track) (frame : Int) : Option Nat :=
  (((t.features.take (frame + 1).toNat).reverse.filterMap id).head?).map (·.frame)

/-- `maybeExpandBounds(frame)`. -/
def Track.maybeExpandBounds (t : Track) (frame : Nat) : Track × List Event :=
  let old := EventPayload.bounds t.begin t.«end»
  if (frame : WithTop Nat) < t.begin then
    ({ t with begin := (frame : WithTop Nat) }).notify ⟨"bounds", old⟩
  else if (frame : WithTop Nat) > t.«end» then
    ({ t with «end» := (frame : WithTop Nat) }).notify ⟨"bounds", old⟩
  else (t, [])

/-- `maybeShrinkBounds(frame)`: in each branch the compared bound equals
`frame`, so the `begin + 1` / `end - 1` of the code are written in terms of
`frame`. -/
def Track.maybeShrinkBounds (t : Track) (frame : Nat) : Track × List Event :=
  let old := EventPayload.bounds t.begin t.«end»
  if (frame : WithTop Nat) = t.begin then
    match t.getNextKeyframe (frame + 1) with
    | none =>
        ({ t with begin := ⊤, «end» := ((0 : Nat) : WithTop Nat) }).notify ⟨"bounds", old⟩
    | some nextFrame =>
        ({ t with begin := (nextFrame : WithTop Nat) }).notify ⟨"bounds", old⟩
  else if (frame : WithTop Nat) = t.«end» then
    match t.getPreviousKeyframe ((frame : Int) - 1) with
    | none =>
        ({ t with «end» := ((0 : Nat) : WithTop Nat), begin := ⊤ }).notify ⟨"bounds", old⟩
    | some previousFrame =>
        ({ t with «end» := (previousFrame : WithTop Nat) }).notify ⟨"bounds", old⟩
  else (t, [])

/-- `canSplit(frame)`. -/
def Track.canSplit (t : Track) (frame : Nat) : Bool :=
  decide (t.begin < (frame : WithTop Nat)) && decide ((frame : WithTop Nat) ≤ t.«end»)

/-- Static `Track.interpolate(frame, d0, d1)`; failures (missing bounds) are
`Except.error`. -/
def Track.interpolate (frame : Nat) (d0 d1 : Feature) : Except String (Option Feature) :=
  if truthy d0.interpolate = false then .ok none
  else
    let len : Rat := (d1.frame : Rat) - (d0.frame : Rat)
    let b : Rat := |((frame : Rat) - (d0.frame : Rat)) / len|
    let a : Rat := 1 - b
    let keyframe : Bool := decide (b = 0) || decide (a = 0)
    match d0.bounds, d1.bounds with
    | some b0, some b1 =>
        .ok (some { frame := frame
                    bounds := some ⟨b0.p0 * a + b1.p0 * b, b0.p1 * a + b1.p1 * b,
                                    b0.p2 * a + b1.p2 * b, b0.p3 * a + b1.p3 * b⟩
                    interpolate := some true
                    keyframe := some keyframe })
    | _, _ => .error "Bounds cannot be missing from interpolated features"

/-- `getFeature(frame)`: 3-tuple `(exact, previous keyframe, next keyframe)`.
The final `TypeError` branch models the crash of reading `.interpolate` off an
`undefined` surrounding feature. -/
def Track.getFeature (t : Track) (frame : Nat) :
    Except String (Option Feature × Option Feature × Option Feature) :=
  match sparseGet t.features frame with
  | some maybeFrame => .ok (some maybeFrame, some maybeFrame, some maybeFrame)
  | none =>
    if (frame : WithTop Nat) < t.begin ∨ (frame : WithTop Nat) > t.«end» then
      if (frame : WithTop Nat) ≤ t.begin then
        .ok (none, sparseGetW t.features t.begin, none)
      else
        .ok (none, none, sparseGetW t.features t.«end»)
    else
      let position := binarySearch t.featureIndex frame
      match getSurroundingElements t.featureIndex position with
      | some (i0, i1) =>
        match sparseGet t.features i0, sparseGet t.features i1 with
        | some d0, some d1 =>
            (Track.interpolate frame d0 d1).map (fun interp => (interp, some d0, some d1))
        | _, _ => .error "TypeError: surrounding feature is undefined"
      | none =>
        if t.featureIndex.length ≠ 0 then
          .error "Unexpected condition: Track bounds mis-aligned with feature array."
        else
          .ok (none, none, none)

/-- `canInterpolate(frame)`: the same 3-tuple plus the effective interpolation
flag for a hypothetical feature at `frame`. -/
def Track.canInterpolate (t : Track) (frame : Nat) :
    Except String ((Option Feature × Option Feature × Option Feature) × Bool) :=
  (t.getFeature frame).map (fun r =>
    let (real, lower, upper) := r
    ((real, lower, upper),
      truthy (real.bind Feature.interpolate) ||
      (truthy (lower.bind Feature.interpolate) ||
        (lower.isNone && truthy (upper.bind Feature.interpolate)))))

/-- `setFeature(feature, geometry)`: merge into the stored feature at that
frame, round incoming bounds, require the result to be a keyframe, update the
index, geometry, bounds and notify.  The error carries the state at the throw,
which already contains the merged feature. -/
def Track.setFeature (t : Track) (feature : Feature) (geometry : List GeoFeature) :
    Except (String × Track) (Track × Feature × List Event) :=
  let f : Option Feature := sparseGet t.features feature.frame
  let merged0 := Feature.spread (f.getD { frame := feature.frame }) feature
  let merged :=
    match feature.bounds with
    | some b => { merged0 with bounds := some (roundBounds b) }
    | none => merged0
  let t1 := { t with features := sparseSet t.features feature.frame (some merged) }
  if truthy merged.keyframe = false then
    .error ("setFeature must be called with keyframe=true OR to update an existing keyframe", t1)
  else
    let t2 := { t1 with featureIndex := listInsert t1.featureIndex feature.frame }
    let fg := merged.geometry.getD []
    let fg2 := geometry.foldl (fun acc geo =>
      match acc.findIdx? (fun item =>
          (strFalsy geo.key || decide (item.key = geo.key)) && (item.geoType == geo.geoType)) with
      | some i => acc.set i geo
      | none => acc ++ [geo]) fg
    let stored := if fg2.length ≠ 0 then { merged with geometry := some fg2 } else merged
    let t3 := { t2 with features := sparseSet t2.features feature.frame (some stored) }
    let p4 : Track × List Event := t3.maybeExpandBounds feature.frame
    let p5 : Track × List Event :=
      if p4.1.featureIndex.length = 1 then
        if (feature.frame : WithTop Nat) ≠ p4.1.begin then
          match p4.1.begin with
          | (b : Nat) => p4.1.maybeShrinkBounds b
          | ⊤ => (p4.1, [])   -- unreachable: maybeExpandBounds left begin ≤ frame
        else if (feature.frame : WithTop Nat) ≠ p4.1.«end» then
          match p4.1.«end» with
          | (e : Nat) => p4.1.maybeShrinkBounds e
          | ⊤ => (p4.1, [])   -- unreachable: end is never Infinity here
        else (p4.1, [])
      else (p4.1, [])
    let p6 : Track × List Event := p5.1.notify ⟨"feature",
      .feature (match f with | some x => .obj x | none => .empty)⟩
    .ok (p6.1, stored, p4.2 ++ p5.2 ++ p6.2)

/-- The merged feature computed by `setFeature` (spread plus bounds
rounding), named for reuse in proofs. -/
def Track.mergedOf (t : Track) (feature : Feature) : Feature :=
  let merged0 :=
    Feature.spread ((sparseGet t.features feature.frame).getD { frame := feature.frame })
      feature
  match feature.bounds with
  | some b => { merged0 with bounds := some (roundBounds b) }
  | none => merged0

/-- The feature stored by a successful `setFeature` (merged feature plus the
geometry collection), named for reuse in proofs. -/
def Track.storedOf (t : Track) (feature : Feature) (geometry : List GeoFeature) : Feature :=
  let merged := t.mergedOf feature
  let fg := merged.geometry.getD []
  let fg2 := geometry.foldl (fun acc geo =>
    match acc.findIdx? (fun item =>
        (strFalsy geo.key || decide (item.key = geo.key)) && (item.geoType == geo.geoType)) with
    | some i => acc.set i geo
    | none => acc ++ [geo]) fg
  if fg2.length ≠ 0 then { merged with geometry := some fg2 } else merged

/-- The feature store and keyframe index right after a successful
`setFeature`, before the bounds update. -/
def Track.afterSetCore (t : Track) (feature : Feature) (geometry : List GeoFeature) : Track :=
  { t with
      features := sparseSet (sparseSet t.features feature.frame (some (t.mergedOf feature)))
        feature.frame (some (t.storedOf feature geometry))
      featureIndex := listInsert t.featureIndex feature.frame }

/-- The full state and event trace produced by a successful `setFeature`. -/
def Track.afterSet (t : Track) (feature : Feature) (geometry : List GeoFeature) :
    Track × List Event :=
  let t3 := t.afterSetCore feature geometry
  let p4 : Track × List Event := t3.maybeExpandBounds feature.frame
  let p5 : Track × List Event :=
    if p4.1.featureIndex.length = 1 then
      if (feature.frame : WithTop Nat) ≠ p4.1.begin then
        match p4.1.begin with
        | (b : Nat) => p4.1.maybeShrinkBounds b
        | ⊤ => (p4.1, [])
      else if (feature.frame : WithTop Nat) ≠ p4.1.«end» then
        match p4.1.«end» with
        | (e : Nat) => p4.1.maybeShrinkBounds e
        | ⊤ => (p4.1, [])
      else (p4.1, [])
    else (p4.1, [])
  let p6 : Track × List Event := p5.1.notify ⟨"feature",
    .feature (match sparseGet t.features feature.frame with | some x => .obj x | none => .empty)⟩
  (p6.1, p4.2 ++ p5.2 ++ p6.2)

/-- `deleteFeature(frame)`. -/
def Track.deleteFeature (t : Track) (frame : Nat) : Track × List Event :=
  let feature := sparseGet t.features frame
  let t1 :=
    if (feature.map (fun x => truthy x.keyframe)).getD false then
      { t with featureIndex := listRemove t.featureIndex frame }
    else t
  let t2 := { t1 with features := sparseDelete t1.features frame }
  let p3 := t2.maybeShrinkBounds frame
  let p4 := p3.1.notify ⟨"feature",
    .feature (match feature with | some x => .obj x | none => .undef)⟩
  (p4.1, p3.2 ++ p4.2)

/-- The neighbor promoted by `toggleKeyframe` when there is no exact feature:
`upper` when `frame` is past it, else `lower` when `frame` is before it. -/
def toggleInterTarget (frame : Nat) (lower upper : Option Feature) : Option Feature :=
  match upper, lower with
  | some u, some lo =>
      if frame > u.frame then some u
      else if frame < lo.frame then some lo else none
  | some u, none => if frame > u.frame then some u else none
  | none, some lo => if frame < lo.frame then some lo else none
  | none, none => none

/-- `toggleKeyframe(frame)`. -/
def Track.toggleKeyframe (t : Track) (frame : Nat) :
    Except (String × Track) (Track × List Event) :=
  match t.canInterpolate frame with
  | .error m => .error (m, t)
  | .ok ((real, lower, upper), _) =>
    let realKey : Bool := truthy (real.bind Feature.keyframe)
    if real.isSome && decide (t.length = some 1) then
      .error ("This is the only keyframe in Track: it cannot be removed", t)
    else if h : real.isSome ∧ realKey = false then
      (t.setFeature { (real.get h.1) with frame := frame, keyframe := some true } []).map
        (fun r => (r.1, r.2.2))
    else if (lower.isSome || upper.isSome) && !realKey then
      match toggleInterTarget frame lower upper with
      | some g =>
          (t.setFeature { g with frame := frame, keyframe := some true } []).map
            (fun r => (r.1, r.2.2))
      | none => .ok (t, [])
    else if realKey then
      .ok (t.deleteFeature frame)
    else .ok (t, [])

/-- Stable sort by descending confidence: models the stable JS
`Array.prototype.sort` with comparator `(a, b) => b[1] - a[1]`. -/
def sortPairsDesc (l : List ConfidencePair) : List ConfidencePair :=
  let rec ins (x : ConfidencePair) : List ConfidencePair → List ConfidencePair
    | [] => [x]
    | y :: ys => if x.2 ≥ y.2 then x :: y :: ys else y :: ins x ys
  l.foldr ins []

/-- `setType(trackType, confidenceVal, replace)`. -/
def Track.setType (t : Track) (trackType : String) (confidenceVal : Rat)
    (replace : Option String) : Track × List Event :=
  let old := t.confidencePairs
  if confidenceVal ≥ 1 then
    ({ t with confidencePairs := [(trackType, 1)] }).notify
      ⟨"confidencePairs", .confidencePairs old⟩
  else
    let pairs1 :=
      match t.confidencePairs.findIdx? (fun p => p.1 == trackType) with
      | some i => t.confidencePairs.set i (trackType, confidenceVal)
      | none =>
          -- splice(-1, 0, pair): insert before the last element (at 0 when empty)
          t.confidencePairs.insertIdx (t.confidencePairs.length - 1) (trackType, confidenceVal)
    let pairs2 :=
      match replace with
      | some r =>
          if r == "" then pairs1   -- `if (replace)`: the empty string is falsy
          else
            match pairs1.findIdx? (fun p => p.1 == r) with
            | some ri => pairs1.eraseIdx ri
            | none => pairs1
      | none => pairs1
    ({ t with confidencePairs := sortPairsDesc pairs2 }).notify
      ⟨"confidencePairs", .confidencePairs old⟩

/-- `setAttribute(key, value)`. -/
def Track.setAttribute (t : Track) (key : String) (value : AttrVal) : Track × List Event :=
  let oldval := attrGet t.attributes key
  ({ t with attributes := attrSet t.attributes key value }).notify
    ⟨"attributes", .attributes key oldval⟩

/-- One iteration of `merge` (one incoming track). -/
def Track.mergeOne (t : Track) (other : Track) : Except (String × Track) (Track × List Event) :=
  let s1 := other.confidencePairs.foldl (fun (acc : Track × List Event) pair =>
    match acc.1.confidencePairs.find? (fun p => p.1 == pair.1) with
    | none =>
        let r := acc.1.setType pair.1 pair.2 none
        (r.1, acc.2 ++ r.2)
    | some m =>
        if m.2 < pair.2 then
          let r := acc.1.setType pair.1 pair.2 none
          (r.1, acc.2 ++ r.2)
        else acc) (t, [])
  match other.features.foldlM (fun (acc : Track × List Event) of =>
    match of with
    | none => Except.ok acc
    | some f =>
      match acc.1.getFeature f.frame with
      | .error m => Except.error (m, acc.1)
      | .ok (some _, _, _) => Except.ok acc
      | .ok (none, _, _) =>
        match acc.1.setFeature f (f.geometry.getD []) with
        | .error e => Except.error e
        | .ok r => Except.ok (r.1, acc.2 ++ r.2.2)) s1 with
  | .error e => .error e
  | .ok s2 =>
    .ok (other.attributes.foldl (fun (acc : Track × List Event) kv =>
      match attrGet acc.1.attributes kv.1 with
      | none =>
          let r := acc.1.setAttribute kv.1 kv.2
          (r.1, acc.2 ++ r.2)
      | some .null =>
          let r := acc.1.setAttribute kv.1 kv.2
          (r.1, acc.2 ++ r.2)
      | some _ => acc) s2)

/-- `merge(others)`: fold the incoming tracks into `this`, in list order. -/
def Track.merge (t : Track) (others : List Track) : Except (String × Track) (Track × List Event) :=
  others.foldlM (fun acc other =>
    (acc.1.mergeOne other).map (fun r => (r.1, acc.2 ++ r.2))) (t, [])

/-- `condenseFeatures()`. -/
def Track.condenseFeatures (t : Track) : List Feature :=
  condense t.features

/-- `serialize()`. -/
def Track.serialize (t : Track) : TrackData where
  trackId := t.trackId
  meta := t.meta
  attributes := t.attributes
  confidencePairs := t.confidencePairs
  features := (condense t.features).map some
  begin := t.begin
  «end» := t.«end»

/-- `{keyframe: true, ...f}`: default the `keyframe` field to `true`, letting
a field present on `f` win. -/
def forceKeyframe (f : Feature) : Feature :=
  { f with keyframe := jsField f.keyframe (some true) }

/-- Static `Track.fromJSON(json)`: place every feature of the dense transport
list at the index given by its own `frame` field, defaulting `keyframe` to
`true` (`{keyframe: true, ...f}`).  `parseInt(trackId.toString(), 10)` is the
identity on the natural `trackId` of the model. -/
def buildSparseFeatures (features : List (Option Feature)) : List (Option Feature) :=
  features.foldl (fun acc of =>
    match of with
    | none => acc
    | some f => sparseSet acc f.frame (some (forceKeyframe f))) []

/-- Static `Track.fromJSON(json)`. -/
def Track.fromJSON (json : TrackData) : Except String Track :=
  Track.construct json.trackId
    { meta := json.meta
      attributes := json.attributes
      confidencePairs := json.confidencePairs
      begin := json.begin
      «end» := json.«end»
      features := buildSparseFeatures json.features }

/-- `split(frame, id1, id2)`. -/
def Track.split (t : Track) (frame : Nat) (id1 id2 : Nat) :
    Except String (Track × Track) :=
  if !t.canSplit frame then
    .error "Cannot split track at frame: frame out of bounds"
  else
    match Track.fromJSON
      { trackId := id1
        meta := t.meta
        begin := t.begin
        «end» := jsOrNat (t.getPreviousKeyframe ((frame : Int) - 1)) t.begin
        features := jsSlice t.features t.begin frame
        confidencePairs := t.confidencePairs
        attributes := t.attributes } with
    | .error e => .error e
    | .ok t1 =>
      match Track.fromJSON
        { trackId := id2
          meta := t.meta
          begin := jsOrNat (t.getNextKeyframe frame) t.«end»
          «end» := t.«end»
          features := t.features.drop frame
          confidencePairs := t.confidencePairs
          attributes := t.attributes } with
      | .error e => .error e
      | .ok t2 => .ok (t1, t2)

/-- Static `Track.trackExceedsThreshold(pairs, thresholds)`; note the JS `||`
fallbacks on the looked-up numbers. -/
def Track.trackExceedsThreshold (pairs : List ConfidencePair)
    (thresholds : List (String × Rat)) : List ConfidencePair :=
  let defaultThresh := jsOrRat ((thresholds.find? (fun p => p.1 == "default")).map (·.2)) 0
  pairs.filter (fun p =>
    p.2 ≥ jsOrRat ((thresholds.find? (fun q => q.1 == p.1)).map (·.2)) defaultThresh)

/-- Well-formedness of a track state, as established by a successful
construction from a valid dense record: every stored feature sits at the index
equal to its `frame`, is a keyframe and has bounds; `featureIndex` is the
sorted list of stored indices; `begin`/`end` are the first/last stored index
(with the empty sentinel `begin = Infinity`, `end = 0`). -/
def Track.wf (t : Track) : Bool :=
  (List.range t.features.length).all (fun i =>
    match sparseGet t.features i with
    | some f => f.frame == i && f.keyframe == some true && f.bounds.isSome
    | none => true) &&
  (t.featureIndex == presentIndices t.features &&
  (t.begin == (match (presentIndices t.features).head? with
               | some k => (k : WithTop Nat)
               | none => ⊤) &&
  t.«end» == (match (presentIndices t.features).getLast? with
              | some k => (k : WithTop Nat)
              | none => ((0 : Nat) : WithTop Nat))))

/-- The exact element of `getFeature` is non-null (a stored keyframe or a
successfully interpolated feature). -/
def Track.ExactSome (t : Track) (frame : Nat) : Prop :=
  ∃ x l u, t.getFeature frame = .ok (some x, l, u)

/-- Invariant carried through a `merge` run, relative to the original track
`t0` and a protected frame `f`: the cells of `t0` are preserved (present cells
verbatim, and the cell at `f` exactly), the keyframe index mirrors the sparse
feature array, `begin`/`end` cover the index, and `f` still has a non-null
exact element. -/
def MergeInv (t0 : Track) (f : Nat) (u : Track) : Prop :=
  (∀ j x, sparseGet t0.features j = some x → sparseGet u.features j = some x) ∧
  sparseGet u.features f = sparseGet t0.features f ∧
  u.featureIndex = presentIndices u.features ∧
  (∀ x ∈ u.featureIndex, u.begin ≤ (x : WithTop Nat) ∧ (x : WithTop Nat) ≤ u.«end») ∧
  u.ExactSome f

/-- The threshold filter as the claim words it: the threshold listed for the
label itself, falling back to `thresholds.default` (or `0` when absent) only
for labels not listed. -/
def trackExceedsThresholdClaim (pairs : List ConfidencePair)
    (thresholds : List (String × Rat)) : List ConfidencePair :=
  pairs.filter (fun p =>
    p.2 ≥ (((thresholds.find? (fun q => q.1 == p.1)).map (·.2)).getD
      (((thresholds.find? (fun q => q.1 == "default")).map (·.2)).getD 0)))

/-- The effective threshold the code actually applies to a label: the listed
threshold when present and non-zero, else the default when present and
non-zero, else `0` (JS `||` fallback). -/
def effectiveThreshold (thresholds : List (String × Rat)) (name : String) : Rat :=
  jsOrRat ((thresholds.find? (fun q => q.1 == name)).map (·.2))
    (jsOrRat ((thresholds.find? (fun q => q.1 == "default")).map (·.2)) 0)

/-- Test fixture: a keyframe feature with bounds and an optional
interpolation flag. -/
def mkKeyframe (fr : Nat) (b : RectBounds) (interp : Option Bool) : Feature :=
  { frame := fr
    keyframe := some true
    bounds := some b
    interpolate := interp }

/-- Projection of the (possibly mutated) state carried by a failed mutation. -/
def errorState (e : Except (String × Track) β) : Option Track :=
  match e with
  | .error p => some p.2
  | .ok _ => none

/-- Test fixture: the track produced by `new Track(0, {})`. -/
def track0 : Track :=
  { trackId := 0
    meta := []
    attributes := []
    confidencePairs := []
    features := []
    featureIndex := []
    begin := ⊤
    «end» := ((0 : Nat) : WithTop Nat)
    revision := 1 }

/-- Test fixture: the spec example track with keyframes at 1, 5 and 10. -/
def splitTrack : Track :=
  { trackId := 1
    meta := []
    attributes := []
    confidencePairs := []
    features := [none, some (mkKeyframe 1 ⟨0,0,1,1⟩ none), none, none, none,
                 some (mkKeyframe 5 ⟨0,0,1,1⟩ none), none, none, none, none,
                 some (mkKeyframe 10 ⟨0,0,1,1⟩ none)]
    featureIndex := [1, 5, 10]
    begin := ((1 : Nat) : WithTop Nat)
    «end» := ((10 : Nat) : WithTop Nat)
    revision := 1 }

/-- Test fixture: a track holding a single stored keyframe at frame 5. -/
def mergeSelf : Track :=
  { trackId := 2
    meta := []
    attributes := []
    confidencePairs := []
    features := [none, none, none, none, none, some (mkKeyframe 5 ⟨1,1,2,2⟩ none)]
    featureIndex := [5]
    begin := ((5 : Nat) : WithTop Nat)
    «end» := ((5 : Nat) : WithTop Nat)
    revision := 1 }

/-- Test fixture: an incoming track with stored keyframes at frames 5 and 7. -/
def mergeOther : Track :=
  { trackId := 3
    meta := []
    attributes := []
    confidencePairs := []
    features := [none, none, none, none, none, some (mkKeyframe 5 ⟨9,9,9,9⟩ none),
                 none, some (mkKeyframe 7 ⟨7,7,8,8⟩ none)]
    featureIndex := [5, 7]
    begin := ((5 : Nat) : WithTop Nat)
    «end» := ((7 : Nat) : WithTop Nat)
    revision := 1 }

/-- Test fixture: keyframes at 4 (interpolating), 6 (not interpolating) and
10; frames in (6,10) have no feature, not even an interpolated one. -/
def mergeBlockA : Track :=
  { trackId := 4
    meta := []
    attributes := []
    confidencePairs := []
    features := [none, none, none, none, some (mkKeyframe 4 ⟨0,0,1,1⟩ (some true)),
                 none, some (mkKeyframe 6 ⟨0,0,2,2⟩ none), none, none, none,
                 some (mkKeyframe 10 ⟨0,0,3,3⟩ none)]
    featureIndex := [4, 6, 10]
    begin := ((4 : Nat) : WithTop Nat)
    «end» := ((10 : Nat) : WithTop Nat)
    revision := 1 }

/-- Test fixture: an incoming track with keyframes at 7 (interpolating) and 8. -/
def mergeBlockB : Track :=
  { trackId := 5
    meta := []
    attributes := []
    confidencePairs := []
    features := [none, none, none, none, none, none, none,
                 some (mkKeyframe 7 ⟨0,0,7,7⟩ (some true)),
                 some (mkKeyframe 8 ⟨0,0,8,8⟩ none)]
    featureIndex := [7, 8]
    begin := ((7 : Nat) : WithTop Nat)
    «end» := ((8 : Nat) : WithTop Nat)
    revision := 1 }

/-- Test fixture: a length-1 track whose only keyframe is at frame 3. -/
def soloTrack : Track :=
  { trackId := 6
    meta := []
    attributes := []
    confidencePairs := []
    features := [none, none, none, some (mkKeyframe 3 ⟨1,1,2,2⟩ none)]
    featureIndex := [3]
    begin := ((3 : Nat) : WithTop Nat)
    «end» := ((3 : Nat) : WithTop Nat)
    revision := 1 }

/-- Test fixture: a track with keyframes at 3 and 6 and nothing at frame 4. -/
def gapTrack : Track :=
  { trackId := 7
    meta := []
    attributes := []
    confidencePairs := []
    features := [none, none, none, some (mkKeyframe 3 ⟨1,1,2,2⟩ none), none, none,
                 some (mkKeyframe 6 ⟨1,1,2,2⟩ none)]
    featureIndex := [3, 6]
    begin := ((3 : Nat) : WithTop Nat)
    «end» := ((6 : Nat) : WithTop Nat)
    revision := 1 }

/-- Test fixture: the spec interpolation example as a transport record
(keyframe A at frame 10 with `interpolate`, keyframe B at frame 20). -/
def interpData : TrackData :=
  { trackId := 1
    meta := []
    attributes := []
    confidencePairs := []
    features := [some (mkKeyframe 10 ⟨0,0,10,10⟩ (some true)),
                 some (mkKeyframe 20 ⟨10,10,20,20⟩ none)]
    begin := ((10 : Nat) : WithTop Nat)
    «end» := ((20 : Nat) : WithTop Nat) }

/-- Test fixture: a small dense transport record whose features are listed out
of frame order. -/
def roundTripData : TrackData :=
  { trackId := 7
    meta := [("m", AttrVal.str "v")]
    attributes := [("x", AttrVal.num 3)]
    confidencePairs := [("fish", mkRat 1 2)]
    features := [some { frame := 1, keyframe := some true, bounds := some ⟨1,1,2,2⟩ },
                 some { frame := 0, bounds := some ⟨0,0,1,1⟩ }]
    begin := ((0 : Nat) : WithTop Nat)
    «end» := ((1 : Nat) : WithTop Nat) }

/-- Test fixture: the track `fromJSON(interpData)` builds (keyframes at 10
and 20, interpolation enabled on the earlier one). -/
def interpTrack : Track :=
  { trackId := 1
    meta := []
    attributes := []
    confidencePairs := []
    features := [none, none, none, none, none, none, none, none, none, none,
                 some (mkKeyframe 10 ⟨0,0,10,10⟩ (some true)),
                 none, none, none, none, none, none, none, none, none,
                 some (mkKeyframe 20 ⟨10,10,20,20⟩ none)]
    featureIndex := [10, 20]
    begin := ((10 : Nat) : WithTop Nat)
    «end» := ((20 : Nat) : WithTop Nat)
    revision := 1 }

/-! ## General lemmas about the sparse-array model -/

theorem sparseGet_def (l : List (Option α)) (i : Nat) :
    sparseGet l i = (l[i]?).getD none := by
  simp [sparseGet, List.getD_eq_getElem?_getD]

theorem sparseGet_eq_none_of_le {l : List (Option α)} {i : Nat} (h : l.length ≤ i) :
    sparseGet l i = none := by
  simp [sparseGet_def, List.getElem?_eq_none h]

theorem lt_length_of_sparseGet_isSome {l : List (Option α)} {i : Nat}
    (h : (sparseGet l i).isSome) : i < l.length := by
  by_contra hc
  rw [sparseGet_eq_none_of_le (Nat.le_of_not_lt hc)] at h
  simp at h

theorem length_sparseSet (l : List (Option α)) (i : Nat) (v : Option α) :
    (sparseSet l i v).length = max l.length (i + 1) := by
  unfold sparseSet
  split <;> simp <;> omega

theorem sparseGet_sparseSet_self (l : List (Option α)) (i : Nat) (v : Option α) :
    sparseGet (sparseSet l i v) i = v := by
  unfold sparseSet
  split
  · rename_i h
    simp [sparseGet_def, List.getElem?_set_self h]
  · rename_i h
    have hlen : (l ++ List.replicate (i - l.length) none).length = i := by
      simp; omega
    rw [sparseGet_def, List.getElem?_append_right (by omega)]
    simp [hlen]

theorem sparseGet_sparseSet_ne (l : List (Option α)) (i : Nat) (v : Option α)
    {j : Nat} (h : j ≠ i) : sparseGet (sparseSet l i v) j = sparseGet l j := by
  unfold sparseSet
  split
  · simp [sparseGet_def, List.getElem?_set_ne (Ne.symm h)]
  · rename_i hl
    rcases Nat.lt_or_ge j l.length with hj | hj
    · rw [sparseGet_def, List.getElem?_append_left (by simp; omega),
        List.getElem?_append_left hj, sparseGet_def]
    · rw [sparseGet_eq_none_of_le hj]
      rcases Nat.lt_or_ge j i with hji | hji
      · rw [sparseGet_def, List.getElem?_append_left (by simp; omega)]
        rw [List.getElem?_append_right (by omega)]
        simp
      · rw [sparseGet_eq_none_of_le]
        simp
        omega

theorem sparseGet_sparseDelete_self (l : List (Option α)) (i : Nat) :
    sparseGet (sparseDelete l i) i = none := by
  unfold sparseDelete
  split
  · rename_i h
    simp [sparseGet_def, List.getElem?_set_self h]
  · rename_i h
    exact sparseGet_eq_none_of_le (Nat.le_of_not_lt h)

theorem sparseGet_sparseDelete_ne (l : List (Option α)) (i : Nat)
    {j : Nat} (h : j ≠ i) : sparseGet (sparseDelete l i) j = sparseGet l j := by
  unfold sparseDelete
  split
  · simp [sparseGet_def, List.getElem?_set_ne (Ne.symm h)]
  · rfl

theorem set_eq_self_of_getElem? {l : List α} {n : Nat} {a : α} (h : l[n]? = some a) :
    l.set n a = l := by
  induction l generalizing n with
  | nil => simp at h
  | cons x xs ih =>
    cases n with
    | zero => simp at h; simp [h]
    | succ m =>
      simp at h
      simp [List.set, ih h]

theorem sparseDelete_of_none {l : List (Option α)} {i : Nat}
    (h : sparseGet l i = none) : sparseDelete l i = l := by
  unfold sparseDelete
  split
  · rename_i hlt
    apply set_eq_self_of_getElem?
    rw [sparseGet_def] at h
    cases hg : l[i]? with
    | none => exact absurd (List.getElem?_eq_none_iff.mp hg) (Nat.not_le_of_lt hlt)
    | some o =>
      rw [hg] at h
      simp at h
      rw [h]
  · rfl

theorem mem_presentIndices {l : List (Option α)} {k : Nat} :
    k ∈ presentIndices l ↔ (sparseGet l k).isSome = true := by
  unfold presentIndices
  rw [List.mem_filter, List.mem_range]
  constructor
  · exact fun h => h.2
  · intro h
    exact ⟨lt_length_of_sparseGet_isSome h, h⟩

theorem presentIndices_pairwise (l : List (Option α)) :
    (presentIndices l).Pairwise (· < ·) :=
  (List.pairwise_lt_range _).filter _

theorem presentIndices_nodup (l : List (Option α)) : (presentIndices l).Nodup :=
  (List.nodup_range _).filter _

theorem eq_of_pairwise_lt_of_mem_iff {l₁ l₂ : List Nat}
    (h₁ : l₁.Pairwise (· < ·)) (h₂ : l₂.Pairwise (· < ·))
    (hm : ∀ a, a ∈ l₁ ↔ a ∈ l₂) : l₁ = l₂ := by
  have hn₁ : l₁.Nodup := h₁.imp Nat.ne_of_lt
  have hn₂ : l₂.Nodup := h₂.imp Nat.ne_of_lt
  exact @List.eq_of_perm_of_sorted Nat (· ≤ ·) inferInstance l₁ l₂
    ((List.perm_ext_iff_of_nodup hn₁ hn₂).mpr hm)
    (h₁.imp Nat.le_of_lt) (h₂.imp Nat.le_of_lt)

theorem presentIndices_ext {l₁ l₂ : List (Option α)}
    (h : ∀ k, sparseGet l₁ k = sparseGet l₂ k) : presentIndices l₁ = presentIndices l₂ := by
  refine eq_of_pairwise_lt_of_mem_iff (presentIndices_pairwise _) (presentIndices_pairwise _) ?_
  intro a
  rw [mem_presentIndices, mem_presentIndices, h a]

theorem mem_listInsert {l : List Nat} {v x : Nat} :
    x ∈ listInsert l v ↔ x = v ∨ x ∈ l := by
  unfold listInsert
  split
  · rename_i h
    constructor
    · exact fun hx => Or.inr hx
    · rintro (rfl | hx)
      · exact h
      · exact hx
  · simp only [List.mem_append, List.mem_cons]
    constructor
    · rintro (h1 | h2 | h3)
      · exact Or.inr ((List.takeWhile_sublist _).mem h1)
      · exact Or.inl h2
      · exact Or.inr ((List.dropWhile_sublist _).mem h3)
    · rintro (rfl | hx)
      · exact Or.inr (Or.inl rfl)
      · rcases List.mem_append.mp ((List.takeWhile_append_dropWhile (· < v) l) ▸ hx) with h | h
        · exact Or.inl h
        · exact Or.inr (Or.inr h)

theorem le_of_mem_dropWhile_lt {l : List Nat} (hs : l.Pairwise (· < ·)) {v b : Nat}
    (hb : b ∈ l.dropWhile (· < v)) : v ≤ b := by
  induction l with
  | nil => simp [List.dropWhile] at hb
  | cons x xs ih =>
    rw [List.dropWhile] at hb
    by_cases hx : x < v
    · simp [hx] at hb
      exact ih hs.tail hb
    · simp [hx] at hb
      rcases hb with rfl | hb
      · omega
      · have := (List.pairwise_cons.mp hs).1 b hb
        omega

theorem listInsert_pairwise {l : List Nat} (hs : l.Pairwise (· < ·)) (v : Nat) :
    (listInsert l v).Pairwise (· < ·) := by
  unfold listInsert
  split
  · exact hs
  · rename_i hv
    have hsplit := List.takeWhile_append_dropWhile (p := (· < v)) (l := l)
    have hful : (l.takeWhile (· < v) ++ l.dropWhile (· < v)).Pairwise (· < ·) := by
      rw [hsplit]; exact hs
    rw [List.pairwise_append] at hful
    rw [List.pairwise_append]
    refine ⟨hful.1, ?_, ?_⟩
    · rw [List.pairwise_cons]
      refine ⟨?_, hful.2.1⟩
      intro b hb
      have hvb := le_of_mem_dropWhile_lt hs hb
      have hbv : b ≠ v := by
        rintro rfl
        exact hv ((List.dropWhile_sublist _).mem hb)
      omega
    · intro a ha b hb
      have hav : a < v := by
        have := List.mem_takeWhile_imp ha
        simpa using this
      rcases List.mem_cons.mp hb with rfl | hb
      · exact hav
      · exact hful.2.2 a ha b hb

theorem sorted_filter_lt_eq_takeWhile {l : List Nat} (hs : l.Pairwise (· < ·)) (v : Nat) :
    l.filter (· < v) = l.takeWhile (· < v) := by
  induction l with
  | nil => rfl
  | cons x xs ih =>
    by_cases hx : x < v
    · simp [List.filter_cons, List.takeWhile_cons, hx, ih hs.tail]
    · have hd : decide (x < v) = false := by simp [hx]
      simp only [List.filter_cons, List.takeWhile_cons, hd,
        Bool.false_eq_true, if_false]
      apply List.filter_eq_nil_iff.mpr
      intro b hb
      have := (List.pairwise_cons.mp hs).1 b hb
      simp
      omega

theorem binarySearch_eq_length_takeWhile {l : List Nat} (hs : l.Pairwise (· < ·)) (v : Nat) :
    binarySearch l v = (l.takeWhile (· < v)).length := by
  unfold binarySearch
  rw [List.countP_eq_length_filter, sorted_filter_lt_eq_takeWhile hs]

theorem le_getLast_of_pairwise_lt {l : List Nat} (hs : l.Pairwise (· < ·)) {a : Nat}
    (h : l.getLast? = some a) : ∀ x ∈ l, x ≤ a := by
  induction l generalizing a with
  | nil => simp at h
  | cons y ys ih =>
    intro x hx
    cases ys with
    | nil =>
      simp at h
      rcases List.mem_singleton.mp hx with rfl
      omega
    | cons z zs =>
      rw [List.getLast?_cons_cons] at h
      rcases List.mem_cons.mp hx with rfl | hx
      · have ha : a ∈ z :: zs := List.mem_of_mem_getLast? h
        have := (List.pairwise_cons.mp hs).1 a ha
        omega
      · exact ih hs.tail h x hx

theorem head_le_of_pairwise_lt {l : List Nat} (hs : l.Pairwise (· < ·)) {b : Nat}
    (h : l.head? = some b) : ∀ x ∈ l, b ≤ x := by
  cases l with
  | nil => simp at h
  | cons y ys =>
    have hyb : y = b := by
      rw [List.head?_cons] at h
      exact Option.some_injective _ h
    subst hyb
    intro x hx
    rcases List.mem_cons.mp hx with rfl | hx
    · omega
    · exact Nat.le_of_lt ((List.pairwise_cons.mp hs).1 x hx)

theorem getLast?_eq_some_iff_of_pairwise_lt {l : List Nat} (hs : l.Pairwise (· < ·)) {a : Nat} :
    l.getLast? = some a ↔ a ∈ l ∧ ∀ x ∈ l, x ≤ a := by
  constructor
  · intro h
    exact ⟨List.mem_of_mem_getLast? h, le_getLast_of_pairwise_lt hs h⟩
  · rintro ⟨ha, hmax⟩
    have hne : l ≠ [] := List.ne_nil_of_mem ha
    cases hl : l.getLast? with
    | none => exact absurd (List.getLast?_eq_none_iff.mp hl) hne
    | some y =>
      have hy : y ∈ l := List.mem_of_mem_getLast? hl
      have h1 : y ≤ a := hmax y hy
      have h2 : a ≤ y := le_getLast_of_pairwise_lt hs hl a ha
      simp only [Option.some.injEq]
      omega

theorem head?_eq_some_iff_of_pairwise_lt {l : List Nat} (hs : l.Pairwise (· < ·)) {b : Nat} :
    l.head? = some b ↔ b ∈ l ∧ ∀ x ∈ l, b ≤ x := by
  constructor
  · intro h
    exact ⟨List.mem_of_mem_head? h, head_le_of_pairwise_lt hs h⟩
  · rintro ⟨hb, hmin⟩
    have hne : l ≠ [] := List.ne_nil_of_mem hb
    cases hl : l.head? with
    | none => exact absurd (List.head?_eq_none_iff.mp hl) hne
    | some y =>
      have hy : y ∈ l := List.mem_of_mem_head? hl
      have h1 : b ≤ y := hmin y hy
      have h2 : y ≤ b := head_le_of_pairwise_lt hs hl b hb
      simp only [Option.some.injEq]
      omega

theorem mem_takeWhile_lt_iff {l : List Nat} (hs : l.Pairwise (· < ·)) {v x : Nat} :
    x ∈ l.takeWhile (· < v) ↔ x ∈ l ∧ x < v := by
  rw [← sorted_filter_lt_eq_takeWhile hs, List.mem_filter]
  simp

theorem mem_dropWhile_lt_iff {l : List Nat} (hs : l.Pairwise (· < ·)) {v x : Nat} :
    x ∈ l.dropWhile (· < v) ↔ x ∈ l ∧ v ≤ x := by
  constructor
  · intro h
    exact ⟨(List.dropWhile_sublist _).mem h, le_of_mem_dropWhile_lt hs h⟩
  · rintro ⟨hx, hvx⟩
    rcases List.mem_append.mp ((List.takeWhile_append_dropWhile (· < v) l) ▸ hx) with h | h
    · have := List.mem_takeWhile_imp h
      simp at this
      omega
    · exact h

theorem getSurroundingElements_eq {l : List Nat} (hs : l.Pairwise (· < ·)) (v : Nat) :
    getSurroundingElements l (binarySearch l v) =
      match (l.takeWhile (· < v)).getLast?, (l.dropWhile (· < v)).head? with
      | some a, some b => some (a, b)
      | _, _ => none := by
  rw [binarySearch_eq_length_takeWhile hs]
  have hsplit : l.takeWhile (· < v) ++ l.dropWhile (· < v) = l :=
    List.takeWhile_append_dropWhile (· < v) l
  generalize htw : l.takeWhile (· < v) = tw at *
  generalize hdw : l.dropWhile (· < v) = dw at *
  subst hsplit
  unfold getSurroundingElements
  by_cases hp : tw.length = 0
  · rw [if_pos hp]
    rw [List.length_eq_zero] at hp
    subst hp
    cases dw.head? <;> rfl
  · rw [if_neg hp]
    rw [List.getElem?_append_left (show tw.length - 1 < tw.length by omega)]
    rw [List.getElem?_append_right (Nat.le_refl tw.length), Nat.sub_self]
    rw [← List.getLast?_eq_getElem?, ← List.head?_eq_getElem?]

theorem surrounding_eq_some_iff {l : List Nat} (hs : l.Pairwise (· < ·)) {v a b : Nat} :
    getSurroundingElements l (binarySearch l v) = some (a, b) ↔
      (a ∈ l ∧ a < v ∧ ∀ x ∈ l, x < v → x ≤ a) ∧
      (b ∈ l ∧ v ≤ b ∧ ∀ x ∈ l, v ≤ x → b ≤ x) := by
  rw [getSurroundingElements_eq hs]
  have hst : (l.takeWhile (· < v)).Pairwise (· < ·) :=
    hs.sublist (List.takeWhile_sublist _)
  have hsd : (l.dropWhile (· < v)).Pairwise (· < ·) :=
    hs.sublist (List.dropWhile_sublist _)
  constructor
  · intro h
    rcases hta : (l.takeWhile (· < v)).getLast? with _ | a'
    · rw [hta] at h
      simp at h
    rcases htb : (l.dropWhile (· < v)).head? with _ | b'
    · rw [hta, htb] at h
      simp at h
    rw [hta, htb] at h
    simp at h
    obtain ⟨rfl, rfl⟩ := h
    have hma := (getLast?_eq_some_iff_of_pairwise_lt hst).mp hta
    have hmb := (head?_eq_some_iff_of_pairwise_lt hsd).mp htb
    have hamem := (mem_takeWhile_lt_iff hs).mp hma.1
    have hbmem := (mem_dropWhile_lt_iff hs).mp hmb.1
    refine ⟨⟨hamem.1, hamem.2, ?_⟩, ⟨hbmem.1, hbmem.2, ?_⟩⟩
    · intro x hx hxv
      exact hma.2 x ((mem_takeWhile_lt_iff hs).mpr ⟨hx, hxv⟩)
    · intro x hx hvx
      exact hmb.2 x ((mem_dropWhile_lt_iff hs).mpr ⟨hx, hvx⟩)
  · rintro ⟨⟨hal, hav, hamax⟩, ⟨hbl, hvb, hbmin⟩⟩
    have hta : (l.takeWhile (· < v)).getLast? = some a := by
      rw [getLast?_eq_some_iff_of_pairwise_lt hst]
      refine ⟨(mem_takeWhile_lt_iff hs).mpr ⟨hal, hav⟩, ?_⟩
      intro x hx
      have := (mem_takeWhile_lt_iff hs).mp hx
      exact hamax x this.1 this.2
    have htb : (l.dropWhile (· < v)).head? = some b := by
      rw [head?_eq_some_iff_of_pairwise_lt hsd]
      refine ⟨(mem_dropWhile_lt_iff hs).mpr ⟨hbl, hvb⟩, ?_⟩
      intro x hx
      have := (mem_dropWhile_lt_iff hs).mp hx
      exact hbmin x this.1 this.2
    rw [hta, htb]

theorem surrounding_eq_none_iff {l : List Nat} (hs : l.Pairwise (· < ·)) {v : Nat} :
    getSurroundingElements l (binarySearch l v) = none ↔
      (∀ x ∈ l, ¬ x < v) ∨ (∀ x ∈ l, ¬ v ≤ x) := by
  rw [getSurroundingElements_eq hs]
  constructor
  · intro h
    rcases hta : (l.takeWhile (· < v)).getLast? with _ | a'
    · rw [List.getLast?_eq_none_iff] at hta
      left
      intro x hx hxv
      have : x ∈ l.takeWhile (· < v) := (mem_takeWhile_lt_iff hs).mpr ⟨hx, hxv⟩
      rw [hta] at this
      simp at this
    rcases htb : (l.dropWhile (· < v)).head? with _ | b'
    · rw [List.head?_eq_none_iff] at htb
      right
      intro x hx hvx
      have : x ∈ l.dropWhile (· < v) := (mem_dropWhile_lt_iff hs).mpr ⟨hx, hvx⟩
      rw [htb] at this
      simp at this
    · rw [hta, htb] at h
      simp at h
  · intro h
    rcases h with h | h
    · have hta : (l.takeWhile (· < v)).getLast? = none := by
        rw [List.getLast?_eq_none_iff]
        cases hl : l.takeWhile (· < v) with
        | nil => rfl
        | cons x xs =>
          have hx : x ∈ l.takeWhile (· < v) := by rw [hl]; exact List.mem_cons_self _ _
          have := (mem_takeWhile_lt_iff hs).mp hx
          exact absurd this.2 (h x this.1)
      rw [hta]
    · have htb : (l.dropWhile (· < v)).head? = none := by
        rw [List.head?_eq_none_iff]
        cases hl : l.dropWhile (· < v) with
        | nil => rfl
        | cons x xs =>
          have hx : x ∈ l.dropWhile (· < v) := by rw [hl]; exact List.mem_cons_self _ _
          have := (mem_dropWhile_lt_iff hs).mp hx
          exact absurd this.2 (h x this.1)
      rw [htb]
      cases (l.takeWhile (· < v)).getLast? <;> rfl

theorem sparseGet_cons_zero (o : Option α) (xs : List (Option α)) :
    sparseGet (o :: xs) 0 = o := rfl

theorem sparseGet_cons_succ (o : Option α) (xs : List (Option α)) (i : Nat) :
    sparseGet (o :: xs) (i + 1) = sparseGet xs i := rfl

theorem sparseGet_drop (l : List (Option α)) (n j : Nat) :
    sparseGet (l.drop n) j = sparseGet l (n + j) := by
  simp [sparseGet_def, List.getElem?_drop]

theorem sparseGet_take (l : List (Option α)) (n j : Nat) :
    sparseGet (l.take n) j = if j < n then sparseGet l j else none := by
  simp only [sparseGet_def, List.getElem?_take]
  split <;> rfl

theorem all_none_iff_sparseGet {l : List (Option α)} :
    (∀ a ∈ l, a = none) ↔ ∀ i, sparseGet l i = none := by
  constructor
  · intro h i
    rcases Nat.lt_or_ge i l.length with hi | hi
    · rw [sparseGet_def]
      cases hg : l[i]? with
      | none => rfl
      | some o =>
        have : o ∈ l := by
          rw [List.mem_iff_getElem?]
          exact ⟨i, hg⟩
        simp [h o this]
    · exact sparseGet_eq_none_of_le hi
  · intro h a ha
    rcases List.mem_iff_getElem?.mp ha with ⟨n, hn⟩
    have := h n
    rw [sparseGet_def, hn] at this
    simpa using this

theorem head?_filterMap_id_eq_none {l : List (Option α)} :
    (l.filterMap id).head? = none ↔ ∀ i, sparseGet l i = none := by
  rw [List.head?_eq_none_iff, List.filterMap_eq_nil_iff]
  simp only [id_eq]
  rw [all_none_iff_sparseGet]

theorem head?_filterMap_id_eq_some {l : List (Option α)} {x : α} :
    (l.filterMap id).head? = some x ↔
      ∃ i, sparseGet l i = some x ∧ ∀ j, j < i → sparseGet l j = none := by
  induction l with
  | nil =>
    simp [sparseGet]
  | cons o xs ih =>
    cases o with
    | some a =>
      simp only [List.filterMap_cons, id_eq, List.head?_cons]
      constructor
      · intro h
        simp only [Option.some.injEq] at h
        refine ⟨0, ?_, ?_⟩
        · rw [sparseGet_cons_zero, h]
        · intro j hj
          omega
      · rintro ⟨i, hi, hmin⟩
        cases i with
        | zero =>
          rw [sparseGet_cons_zero] at hi
          exact hi
        | succ m =>
          have := hmin 0 (Nat.succ_pos m)
          rw [sparseGet_cons_zero] at this
          simp at this
    | none =>
      simp only [List.filterMap_cons, id_eq]
      rw [ih]
      constructor
      · rintro ⟨i, hi, hmin⟩
        refine ⟨i + 1, ?_, ?_⟩
        · rw [sparseGet_cons_succ]
          exact hi
        · intro j hj
          cases j with
          | zero => exact sparseGet_cons_zero none xs
          | succ m =>
            rw [sparseGet_cons_succ]
            exact hmin m (by omega)
      · rintro ⟨i, hi, hmin⟩
        cases i with
        | zero =>
          rw [sparseGet_cons_zero] at hi
          simp at hi
        | succ m =>
          rw [sparseGet_cons_succ] at hi
          refine ⟨m, hi, ?_⟩
          intro j hj
          have := hmin (j + 1) (by omega)
          rw [sparseGet_cons_succ] at this
          exact this

theorem getNextKeyframe_eq_none_iff (t : Track) (n : Nat) :
    t.getNextKeyframe n = none ↔ ∀ k, n ≤ k → sparseGet t.features k = none := by
  unfold Track.getNextKeyframe
  rw [Option.map_eq_none']
  rw [head?_filterMap_id_eq_none]
  constructor
  · intro h k hk
    have := h (k - n)
    rw [sparseGet_drop] at this
    rwa [Nat.add_sub_cancel' hk] at this
  · intro h i
    rw [sparseGet_drop]
    exact h (n + i) (Nat.le_add_right n i)

theorem getNextKeyframe_eq_some_iff {t : Track}
    (hfr : ∀ i f, sparseGet t.features i = some f → f.frame = i) (n k : Nat) :
    t.getNextKeyframe n = some k ↔
      n ≤ k ∧ (sparseGet t.features k).isSome = true ∧
        ∀ j, n ≤ j → j < k → sparseGet t.features j = none := by
  unfold Track.getNextKeyframe
  constructor
  · intro h
    rcases Option.map_eq_some'.mp h with ⟨f, hf, hfk⟩
    rcases head?_filterMap_id_eq_some.mp hf with ⟨i, hi, hmin⟩
    rw [sparseGet_drop] at hi
    have hframe := hfr (n + i) f hi
    have hk : k = n + i := by rw [← hfk, hframe]
    subst hk
    refine ⟨Nat.le_add_right n i, by simp [hi], ?_⟩
    intro j hnj hjk
    have := hmin (j - n) (by omega)
    rw [sparseGet_drop, Nat.add_sub_cancel' hnj] at this
    exact this
  · rintro ⟨hnk, hsome, hmin⟩
    rcases Option.isSome_iff_exists.mp hsome with ⟨f, hf⟩
    have hframe := hfr k f hf
    apply Option.map_eq_some'.mpr
    refine ⟨f, ?_, hframe⟩
    apply head?_filterMap_id_eq_some.mpr
    refine ⟨k - n, ?_, ?_⟩
    · rw [sparseGet_drop, Nat.add_sub_cancel' hnk]
      exact hf
    · intro j hj
      rw [sparseGet_drop]
      exact hmin (n + j) (Nat.le_add_right n j) (by omega)

theorem getPreviousKeyframe_neg_one (t : Track) :
    t.getPreviousKeyframe (-1) = none := by
  unfold Track.getPreviousKeyframe
  norm_num

theorem head?_filterMap_id_reverse_eq_none {l : List (Option α)} :
    (l.reverse.filterMap id).head? = none ↔ ∀ i, sparseGet l i = none := by
  rw [List.head?_eq_none_iff, List.filterMap_eq_nil_iff]
  rw [← all_none_iff_sparseGet]
  constructor
  · intro h a ha
    exact h a (List.mem_reverse.mpr ha)
  · intro h a ha
    exact h a (List.mem_reverse.mp ha)

theorem head?_filterMap_id_reverse_eq_some {l : List (Option α)} {x : α} :
    (l.reverse.filterMap id).head? = some x ↔
      ∃ i, sparseGet l i = some x ∧ ∀ j, i < j → sparseGet l j = none := by
  induction l with
  | nil => simp [sparseGet]
  | cons o xs ih =>
    rw [List.reverse_cons, List.filterMap_append]
    rcases hrev : (xs.reverse.filterMap id).head? with _ | y
    · have hnil : xs.reverse.filterMap id = [] := List.head?_eq_none_iff.mp hrev
      rw [hnil, List.nil_append]
      have hall : ∀ i, sparseGet xs i = none := head?_filterMap_id_reverse_eq_none.mp hrev
      cases o with
      | some a =>
        simp only [List.filterMap_cons, id_eq, List.filterMap_nil, List.head?_cons]
        constructor
        · intro h
          simp only [Option.some.injEq] at h
          refine ⟨0, ?_, ?_⟩
          · rw [sparseGet_cons_zero, h]
          · intro j hj
            cases j with
            | zero => omega
            | succ m => rw [sparseGet_cons_succ]; exact hall m
        · rintro ⟨i, hi, _⟩
          cases i with
          | zero =>
            rw [sparseGet_cons_zero] at hi
            exact hi
          | succ m =>
            rw [sparseGet_cons_succ, hall m] at hi
            simp at hi
      | none =>
        simp only [List.filterMap_cons, id_eq, List.filterMap_nil, List.head?_nil]
        constructor
        · intro h
          simp at h
        · rintro ⟨i, hi, _⟩
          cases i with
          | zero =>
            rw [sparseGet_cons_zero] at hi
            simp at hi
          | succ m =>
            rw [sparseGet_cons_succ, hall m] at hi
            simp at hi
    · have hne : xs.reverse.filterMap id ≠ [] := by
        intro hc
        rw [hc] at hrev
        simp at hrev
      rw [List.head?_append_of_ne_nil _ hne]
      rw [ih]
      constructor
      · rintro ⟨i, hi, hmin⟩
        refine ⟨i + 1, by rw [sparseGet_cons_succ]; exact hi, ?_⟩
        intro j hj
        cases j with
        | zero => omega
        | succ m =>
          rw [sparseGet_cons_succ]
          exact hmin m (by omega)
      · rintro ⟨i, hi, hmin⟩
        cases i with
        | zero =>
          have hallxs : ∀ m, sparseGet xs m = none := by
            intro m
            have := hmin (m + 1) (Nat.succ_pos m)
            rw [sparseGet_cons_succ] at this
            exact this
          have hnone : (xs.reverse.filterMap id).head? = none :=
            head?_filterMap_id_reverse_eq_none.mpr hallxs
          rw [hnone] at hrev
          simp at hrev
        | succ m =>
          rw [sparseGet_cons_succ] at hi
          refine ⟨m, hi, ?_⟩
          intro j hj
          have := hmin (j + 1) (by omega)
          rw [sparseGet_cons_succ] at this
          exact this

theorem getPreviousKeyframe_eq_none_iff (t : Track) (m : Nat) :
    t.getPreviousKeyframe (m : Int) = none ↔ ∀ k, k ≤ m → sparseGet t.features k = none := by
  unfold Track.getPreviousKeyframe
  have harg : (((m : Int)) + 1).toNat = m + 1 := by omega
  rw [harg, Option.map_eq_none']
  rw [head?_filterMap_id_reverse_eq_none]
  constructor
  · intro h k hk
    have := h k
    rw [sparseGet_take] at this
    rwa [if_pos (by omega)] at this
  · intro h i
    rw [sparseGet_take]
    split
    · exact h i (by omega)
    · rfl

theorem getPreviousKeyframe_eq_some_iff {t : Track}
    (hfr : ∀ i f, sparseGet t.features i = some f → f.frame = i) (m k : Nat) :
    t.getPreviousKeyframe (m : Int) = some k ↔
      k ≤ m ∧ (sparseGet t.features k).isSome = true ∧
        ∀ j, k < j → j ≤ m → sparseGet t.features j = none := by
  unfold Track.getPreviousKeyframe
  have harg : (((m : Int)) + 1).toNat = m + 1 := by omega
  rw [harg]
  constructor
  · intro h
    rcases Option.map_eq_some'.mp h with ⟨f, hf, hfk⟩
    rcases head?_filterMap_id_reverse_eq_some.mp hf with ⟨i, hi, hmax⟩
    rw [sparseGet_take] at hi
    by_cases him : i < m + 1
    · rw [if_pos him] at hi
      have hframe := hfr i f hi
      have hk : k = i := by rw [← hfk, hframe]
      subst hk
      refine ⟨by omega, by simp [hi], ?_⟩
      intro j hkj hjm
      have := hmax j hkj
      rw [sparseGet_take, if_pos (by omega)] at this
      exact this
    · rw [if_neg him] at hi
      simp at hi
  · rintro ⟨hkm, hsome, hmax⟩
    rcases Option.isSome_iff_exists.mp hsome with ⟨f, hf⟩
    have hframe := hfr k f hf
    apply Option.map_eq_some'.mpr
    refine ⟨f, ?_, hframe⟩
    apply head?_filterMap_id_reverse_eq_some.mpr
    refine ⟨k, ?_, ?_⟩
    · rw [sparseGet_take, if_pos (by omega)]
      exact hf
    · intro j hj
      rw [sparseGet_take]
      split
      · exact hmax j hj (by omega)
      · rfl

theorem filterMap_id_replicate_none (n : Nat) :
    (List.replicate n (none : Option α)).filterMap id = [] := by
  apply List.filterMap_eq_nil_iff.mpr
  intro a ha
  have := List.eq_of_mem_replicate ha
  simp [this]

theorem condense_set_of_none {l : List (Option α)} {i : Nat} (v : α)
    (hi : i < l.length) (h : sparseGet l i = none) :
    List.Perm (condense (l.set i (some v))) (v :: condense l) := by
  induction l generalizing i with
  | nil => simp at hi
  | cons o xs ih =>
    cases i with
    | zero =>
      rw [sparseGet_cons_zero] at h
      subst h
      simp [condense, List.filterMap_cons]
    | succ m =>
      rw [sparseGet_cons_succ] at h
      have hm : m < xs.length := by simp at hi; omega
      have hperm := ih hm h
      cases o with
      | none =>
        simpa [condense, List.filterMap_cons] using hperm
      | some a =>
        rw [List.set_cons_succ]
        have h1 : condense (some a :: xs.set m (some v)) = a :: condense (xs.set m (some v)) := by
          simp [condense, List.filterMap_cons]
        have h2 : condense (some a :: xs) = a :: condense xs := by
          simp [condense, List.filterMap_cons]
        rw [h1, h2]
        exact List.Perm.trans (hperm.cons a) (List.Perm.swap _ _ _)
        
theorem condense_sparseSet_of_none {l : List (Option α)} {i : Nat} (v : α)
    (h : sparseGet l i = none) :
    List.Perm (condense (sparseSet l i (some v))) (v :: condense l) := by
  unfold sparseSet
  split
  · exact condense_set_of_none v ‹_› h
  · unfold condense
    rw [List.filterMap_append, List.filterMap_append]
    rw [filterMap_id_replicate_none]
    simp only [List.filterMap_cons, List.filterMap_nil, id_eq, List.append_nil]
    exact List.perm_append_singleton v _

theorem presentIndices_sparseSet_some (l : List (Option α)) (g : Nat) (v : α) :
    presentIndices (sparseSet l g (some v)) = listInsert (presentIndices l) g := by
  apply eq_of_pairwise_lt_of_mem_iff (presentIndices_pairwise _)
    (listInsert_pairwise (presentIndices_pairwise _) g)
  intro a
  rw [mem_presentIndices, mem_listInsert, mem_presentIndices]
  by_cases ha : a = g
  · subst ha
    rw [sparseGet_sparseSet_self]
    simp
  · rw [sparseGet_sparseSet_ne _ _ _ ha]
    simp [ha]

theorem condense_pairwise_frame_aux (l : List (Option Feature)) (n : Nat)
    (hfr : ∀ i f, sparseGet l i = some f → f.frame = n + i) :
    (condense l).Pairwise (fun a b => a.frame < b.frame) ∧
      ∀ f ∈ condense l, n ≤ f.frame := by
  induction l generalizing n with
  | nil => simp [condense]
  | cons o xs ih =>
    have hxs : ∀ i f, sparseGet xs i = some f → f.frame = (n + 1) + i := by
      intro i f hf
      have := hfr (i + 1) f (by rw [sparseGet_cons_succ]; exact hf)
      omega
    rcases ih (n + 1) hxs with ⟨hp, hge⟩
    cases o with
    | none =>
      have hc : condense ((none : Option Feature) :: xs) = condense xs := by
        simp [condense, List.filterMap_cons]
      rw [hc]
      exact ⟨hp, fun f hf => by have := hge f hf; omega⟩
    | some a =>
      have ha : a.frame = n := by
        have := hfr 0 a (sparseGet_cons_zero _ _)
        omega
      have hc : condense (some a :: xs) = a :: condense xs := by
        simp [condense, List.filterMap_cons]
      rw [hc]
      constructor
      · rw [List.pairwise_cons]
        refine ⟨?_, hp⟩
        intro b hb
        have := hge b hb
        omega
      · intro f hf
        rcases List.mem_cons.mp hf with rfl | hf
        · omega
        · have := hge f hf
          omega

theorem condense_pairwise_frame {l : List (Option Feature)}
    (hfr : ∀ i f, sparseGet l i = some f → f.frame = i) :
    (condense l).Pairwise (fun a b => a.frame < b.frame) :=
  (condense_pairwise_frame_aux l 0 (by simpa using hfr)).1

theorem buildSparse_foldl_preserve (fs : List (Option Feature)) (acc : List (Option Feature))
    (k : Nat) (h : ∀ f, some f ∈ fs → f.frame ≠ k) :
    sparseGet (fs.foldl (fun acc of =>
      match of with
      | none => acc
      | some f => sparseSet acc f.frame (some (forceKeyframe f))) acc) k = sparseGet acc k := by
  induction fs generalizing acc with
  | nil => rfl
  | cons o rest ih =>
    cases o with
    | none =>
      exact ih acc (fun f hf => h f (List.mem_cons_of_mem _ hf))
    | some f =>
      rw [List.foldl_cons]
      rw [ih _ (fun g hg => h g (List.mem_cons_of_mem _ hg))]
      exact sparseGet_sparseSet_ne _ _ _ (fun hk => h f (List.mem_cons_self _ _) (hk ▸ rfl))

theorem buildSparse_foldl_mem (fs : List (Option Feature)) (acc : List (Option Feature))
    (k : Nat) (f' : Feature)
    (h : sparseGet (fs.foldl (fun acc of =>
      match of with
      | none => acc
      | some f => sparseSet acc f.frame (some (forceKeyframe f))) acc) k = some f') :
    sparseGet acc k = some f' ∨ ∃ f, some f ∈ fs ∧ f' = forceKeyframe f ∧ f.frame = k := by
  induction fs generalizing acc with
  | nil => exact Or.inl h
  | cons o rest ih =>
    cases o with
    | none =>
      rcases ih acc h with h1 | ⟨f, hf, he, hk⟩
      · exact Or.inl h1
      · exact Or.inr ⟨f, List.mem_cons_of_mem _ hf, he, hk⟩
    | some g =>
      rw [List.foldl_cons] at h
      rcases ih _ h with h1 | ⟨f, hf, he, hk⟩
      · by_cases hk : k = g.frame
        · subst hk
          rw [sparseGet_sparseSet_self] at h1
          exact Or.inr ⟨g, List.mem_cons_self _ _, (Option.some_injective _ h1).symm, rfl⟩
        · rw [sparseGet_sparseSet_ne _ _ _ hk] at h1
          exact Or.inl h1
      · exact Or.inr ⟨f, List.mem_cons_of_mem _ hf, he, hk⟩

theorem buildSparse_foldl_get_self (fs : List (Option Feature)) (acc : List (Option Feature))
    (hnd : ((fs.filterMap id).map Feature.frame).Nodup) (f : Feature) (hf : some f ∈ fs) :
    sparseGet (fs.foldl (fun acc of =>
      match of with
      | none => acc
      | some f => sparseSet acc f.frame (some (forceKeyframe f))) acc) f.frame
      = some (forceKeyframe f) := by
  induction fs generalizing acc with
  | nil => simp at hf
  | cons o rest ih =>
    cases o with
    | none =>
      have hf' : some f ∈ rest := by
        rcases List.mem_cons.mp hf with h | h
        · simp at h
        · exact h
      exact ih acc (by simpa [List.filterMap_cons] using hnd) hf'
    | some g =>
      simp only [List.filterMap_cons, id_eq] at hnd
      rw [List.map_cons, List.nodup_cons] at hnd
      rw [List.foldl_cons]
      rcases List.mem_cons.mp hf with h | h
      · have hg : g = f := by
          simpa using h.symm
        subst hg
        rw [buildSparse_foldl_preserve]
        · exact sparseGet_sparseSet_self _ _ _
        · intro f2 hf2 hfr2
          apply hnd.1
          rw [← hfr2]
          exact List.mem_map_of_mem Feature.frame (List.mem_filterMap.mpr ⟨some f2, hf2, rfl⟩)
      · exact ih _ hnd.2 h

theorem buildSparse_condense_perm (fs : List (Option Feature)) (acc : List (Option Feature))
    (hnd : ((fs.filterMap id).map Feature.frame).Nodup)
    (hacc : ∀ f, some f ∈ fs → sparseGet acc f.frame = none) :
    List.Perm
      (condense (fs.foldl (fun acc of =>
        match of with
        | none => acc
        | some f => sparseSet acc f.frame (some (forceKeyframe f))) acc))
      (condense acc ++ (fs.filterMap id).map forceKeyframe) := by
  induction fs generalizing acc with
  | nil => simp [List.Perm.refl]
  | cons o rest ih =>
    cases o with
    | none =>
      rw [List.foldl_cons]
      have h1 := ih acc (by simpa [List.filterMap_cons] using hnd)
        (fun f hf => hacc f (List.mem_cons_of_mem _ hf))
      simpa [List.filterMap_cons] using h1
    | some g =>
      simp only [List.filterMap_cons, id_eq] at hnd
      rw [List.map_cons, List.nodup_cons] at hnd
      rw [List.foldl_cons]
      have hne : ∀ f, some f ∈ rest → sparseGet (sparseSet acc g.frame (some (forceKeyframe g))) f.frame = none := by
        intro f hf
        have hfr : f.frame ≠ g.frame := by
          intro hc
          apply hnd.1
          rw [← hc]
          exact List.mem_map_of_mem Feature.frame (List.mem_filterMap.mpr ⟨some f, hf, rfl⟩)
        rw [sparseGet_sparseSet_ne _ _ _ hfr]
        exact hacc f (List.mem_cons_of_mem _ hf)
      have h1 := ih (sparseSet acc g.frame (some (forceKeyframe g))) hnd.2 hne
      have h2 : List.Perm (condense (sparseSet acc g.frame (some (forceKeyframe g))))
          (forceKeyframe g :: condense acc) :=
        condense_sparseSet_of_none _ (hacc g (List.mem_cons_self _ _))
      have h3 := List.Perm.append h2 (List.Perm.refl ((rest.filterMap id).map forceKeyframe))
      have h4 := List.Perm.trans h1 h3
      simp only [List.filterMap_cons, id_eq, List.map_cons]
      refine List.Perm.trans h4 ?_
      exact List.perm_middle.symm

theorem wf_stored {t : Track} (h : t.wf = true) :
    ∀ i f, sparseGet t.features i = some f →
      f.frame = i ∧ f.keyframe = some true ∧ f.bounds.isSome = true := by
  intro i f hf
  unfold Track.wf at h
  rw [Bool.and_eq_true] at h
  have hall := h.1
  rw [List.all_eq_true] at hall
  have hlt : i < t.features.length := lt_length_of_sparseGet_isSome (by simp [hf])
  have hh := hall i (List.mem_range.mpr hlt)
  rw [hf] at hh
  simp only [Bool.and_eq_true, beq_iff_eq] at hh
  exact ⟨hh.1.1, hh.1.2, hh.2⟩

theorem wf_index {t : Track} (h : t.wf = true) :
    t.featureIndex = presentIndices t.features := by
  unfold Track.wf at h
  rw [Bool.and_eq_true, Bool.and_eq_true] at h
  have := h.2.1
  simpa using this

theorem wf_begin {t : Track} (h : t.wf = true) :
    t.begin = (match (presentIndices t.features).head? with
               | some k => (k : WithTop Nat)
               | none => ⊤) := by
  unfold Track.wf at h
  rw [Bool.and_eq_true, Bool.and_eq_true, Bool.and_eq_true] at h
  have := h.2.2.1
  simpa using this

theorem wf_end {t : Track} (h : t.wf = true) :
    t.«end» = (match (presentIndices t.features).getLast? with
               | some k => (k : WithTop Nat)
               | none => ((0 : Nat) : WithTop Nat)) := by
  unfold Track.wf at h
  rw [Bool.and_eq_true, Bool.and_eq_true, Bool.and_eq_true] at h
  have := h.2.2.2
  simpa using this

/-! ## Claim theorems -/

/-- C9 (counterexample): the claim says `thresholds.default` is used only for
labels not listed in `thresholds`, but for a label listed with threshold `0`
the JS `||` fallback applies the default anyway: with pairs
`[(fish, 0.2)]` and thresholds `{fish: 0, default: 0.4}` the claim predicts
`[(fish, 0.2)]` while the code returns `[]`. -/
theorem c9_counterexample :
    Track.trackExceedsThreshold [("fish", mkRat 1 5)] [("fish", 0), ("default", mkRat 2 5)] = [] ∧
    trackExceedsThresholdClaim [("fish", mkRat 1 5)] [("fish", 0), ("default", mkRat 2 5)]
      = [("fish", mkRat 1 5)] := by
  constructor
  · rfl
  · rfl

/-- C9 (amended): `trackExceedsThreshold(pairs, thresholds)` returns exactly
the pairs whose confidence is at least the effective threshold of their label,
where the effective threshold is the listed one when present and non-zero,
else `thresholds.default` when present and non-zero, else `0`; in particular
`trackExceedsThreshold([[fish,0.6],[shark,0.3]], {fish:0.5, default:0.4})`
returns `[[fish,0.6]]` only. -/
theorem c9_amended :
    (∀ (pairs : List ConfidencePair) (thresholds : List (String × Rat)),
      Track.trackExceedsThreshold pairs thresholds =
        pairs.filter (fun p => p.2 ≥ effectiveThreshold thresholds p.1)) ∧
    Track.trackExceedsThreshold [("fish", mkRat 3 5), ("shark", mkRat 3 10)]
      [("fish", mkRat 1 2), ("default", mkRat 2 5)] = [("fish", mkRat 3 5)] := by
  constructor
  · intro pairs thresholds
    rfl
  · rfl

/-- C2 (code bug): adding the very first keyframe (frame 5) to a track
constructed with the default sentinel bounds leaves `begin = Infinity`,
`end = 0` while `featureIndex = [5]`: `maybeExpandBounds` only moves `begin`,
and the first-keyframe shrink path then runs `maybeShrinkBounds(0)`, whose
`getPreviousKeyframe(-1)` resets both bounds to the empty sentinel.  The
claimed invariant `begin <= end` once `featureIndex` is non-empty is violated,
and `getFeature` on this state reports its fatal mis-alignment error. -/
theorem c2_sentinel_first_keyframe :
    Track.construct 0 {} = .ok track0 ∧
    ((track0.setFeature { frame := 5, keyframe := some true, bounds := some ⟨0,0,1,1⟩ } []).toOption.map
      (fun r => (r.1.begin, r.1.«end», r.1.featureIndex)))
      = some (⊤, ((0 : Nat) : WithTop Nat), [5]) := by
  constructor
  · rfl
  · rfl

/-- C1 (counterexample): from a validly constructed empty track, the public
mutation `setFeature({frame: 0, keyframe: true})` succeeds and stores a
feature with `keyframe` truthy and `bounds` absent, so the reachable-state
invariant "keyframe=true iff non-null bounds" is false. -/
theorem c1_counterexample :
    Track.construct 0 {} = .ok track0 ∧
    ((track0.setFeature { frame := 0, keyframe := some true } []).toOption.map
      (fun r => (sparseGet r.1.features 0).map (fun f => (truthy f.keyframe, f.bounds))))
      = some (some (true, none)) := by
  constructor
  · rfl
  · rfl

/-- C6 (counterexample): `setFeature` writes the merged feature into
`features[frame]` before the keyframe validation that throws, so a failed
call leaves the feature store mutated: on an empty track,
`setFeature({frame: 2, bounds: [1,1,2,2]})` raises and the state carried by
the error holds a stored feature at frame 2 and differs from the original. -/
theorem c6_counterexample :
    Track.construct 0 {} = .ok track0 ∧
    sparseGet track0.features 2 = none ∧
    ((errorState (track0.setFeature { frame := 2, bounds := some ⟨1,1,2,2⟩ } [])).map
      (fun t1 => sparseGet t1.features 2))
      = some (some { frame := 2, bounds := some (roundBounds ⟨1,1,2,2⟩) }) := by
  refine ⟨rfl, rfl, rfl⟩

/-- C8: on a track of length 1 (begin = end) whose only keyframe is at
`frame`, `toggleKeyframe(frame)` raises the only-keyframe error and the state
carried by the error is the unchanged track. -/
theorem c8_only_keyframe_toggle (t : Track) (frame : Nat)
    (hwf : t.wf = true) (hidx : t.featureIndex = [frame]) :
    t.toggleKeyframe frame =
      .error ("This is the only keyframe in Track: it cannot be removed", t) := by
  have hpres : presentIndices t.features = [frame] := by
    rw [← wf_index hwf]
    exact hidx
  have hsome : (sparseGet t.features frame).isSome = true := by
    rw [← mem_presentIndices, hpres]
    exact List.mem_singleton.mpr rfl
  rcases Option.isSome_iff_exists.mp hsome with ⟨f, hf⟩
  have hgf : t.getFeature frame = .ok (some f, some f, some f) := by
    unfold Track.getFeature
    rw [hf]
  have hlen : t.length = some 1 := by
    unfold Track.length
    rw [wf_begin hwf, wf_end hwf, hpres]
    simp
  unfold Track.toggleKeyframe
  unfold Track.canInterpolate
  rw [hgf]
  simp [Except.map, hlen]

/-- C8 (witness): the length-1 fixture track with its only keyframe at
frame 3. -/
theorem c8_witness :
    (soloTrack.wf = true ∧ soloTrack.featureIndex = [3]) ∧
    soloTrack.toggleKeyframe 3 =
      .error ("This is the only keyframe in Track: it cannot be removed", soloTrack) :=
  ⟨⟨by decide, by decide⟩, c8_only_keyframe_toggle soloTrack 3 (by decide) (by decide)⟩

/-- C10: on a track with at least one keyframe, `deleteFeature` at a frame
holding no feature is not a no-op for observers: the feature store, index and
bounds are unchanged, but the revision counter is incremented and a `feature`
notification whose old value is `undefined` is emitted. -/
theorem c10_delete_missing_feature (t : Track) (frame : Nat)
    (hwf : t.wf = true) (hne : t.featureIndex ≠ [])
    (hmiss : sparseGet t.features frame = none) :
    t.deleteFeature frame =
      ({ t with revision := t.revision + 1 }, [⟨"feature", .feature .undef⟩]) := by
  have hpres : presentIndices t.features ≠ [] := by
    rw [← wf_index hwf]
    exact hne
  unfold Track.deleteFeature
  rw [hmiss]
  simp only [Option.map_none', Option.getD_none, if_neg Bool.false_ne_true]
  have hdel : sparseDelete t.features frame = t.features := sparseDelete_of_none hmiss
  rw [hdel]
  have ht2 : { t with features := t.features } = t := rfl
  rw [ht2]
  cases hh : (presentIndices t.features).head? with
  | none => exact absurd (List.head?_eq_none_iff.mp hh) hpres
  | some h0 =>
    have hl : (presentIndices t.features).getLast? ≠ none := by
      intro hc
      exact hpres (List.getLast?_eq_none_iff.mp hc)
    cases hlast : (presentIndices t.features).getLast? with
    | none => exact absurd hlast hl
    | some e0 =>
      have hb : t.begin = (h0 : WithTop Nat) := by
        rw [wf_begin hwf, hh]
      have he : t.«end» = (e0 : WithTop Nat) := by
        rw [wf_end hwf, hlast]
      have h0mem : (sparseGet t.features h0).isSome = true := by
        rw [← mem_presentIndices]
        exact List.mem_of_mem_head? hh
      have e0mem : (sparseGet t.features e0).isSome = true := by
        rw [← mem_presentIndices]
        exact List.mem_of_mem_getLast? hlast
      have hfb : frame ≠ h0 := by
        intro hc
        rw [← hc, hmiss] at h0mem
        simp at h0mem
      have hfe : frame ≠ e0 := by
        intro hc
        rw [← hc, hmiss] at e0mem
        simp at e0mem
      have hshrink : t.maybeShrinkBounds frame = (t, []) := by
        unfold Track.maybeShrinkBounds
        have c1 : ¬((frame : WithTop Nat) = t.begin) := by
          rw [hb]
          intro hc
          exact hfb (WithTop.coe_eq_coe.mp hc)
        have c2 : ¬((frame : WithTop Nat) = t.«end») := by
          rw [he]
          intro hc
          exact hfe (WithTop.coe_eq_coe.mp hc)
        simp only [if_neg c1, if_neg c2]
      rw [hshrink]
      unfold Track.notify
      rw [if_pos ?_]
      · rfl
      · unfold Track.isInitialized
        simp only [decide_eq_true_eq]
        rcases List.length_pos.mpr hne with h
        exact h

/-- C10 (witness): deleting the absent frame 4 of the fixture track with
keyframes 3 and 6. -/
theorem c10_witness :
    (gapTrack.wf = true ∧ gapTrack.featureIndex ≠ [] ∧ sparseGet gapTrack.features 4 = none) ∧
    gapTrack.deleteFeature 4 =
      ({ gapTrack with revision := gapTrack.revision + 1 },
       [⟨"feature", .feature .undef⟩]) :=
  ⟨⟨by decide, by decide, by decide⟩,
    c10_delete_missing_feature gapTrack 4 (by decide) (by decide) (by decide)⟩

/-- C3: for keyframes `d0`, `d1` with bounds and `d0.frame < frame <
d1.frame`, `interpolate` returns null when `d0.interpolate` is falsy;
otherwise it returns the element-wise blend with weight
`b = |frame - d0.frame| / (d1.frame - d0.frame)`, carrying
`interpolate = true` and `keyframe = false` (the weight is strictly between 0
and 1 for a strictly interior frame).  Concretely, on the track built from
keyframes A = (10, [0,0,10,10], interpolate) and B = (20, [10,10,20,20]),
`getFeature(15)` yields bounds [5,5,15,15] with `keyframe = false`. -/
theorem c3_interpolation :
    (∀ (frame : Nat) (d0 d1 : Feature) (b0 b1 : RectBounds),
      d0.bounds = some b0 → d1.bounds = some b1 →
      d0.frame < frame → frame < d1.frame →
      (truthy d0.interpolate = false → Track.interpolate frame d0 d1 = .ok none) ∧
      (truthy d0.interpolate = true →
        ∃ bb : Rat,
          bb = |(frame : Rat) - (d0.frame : Rat)| / ((d1.frame : Rat) - (d0.frame : Rat)) ∧
          Track.interpolate frame d0 d1 = .ok (some
            { frame := frame
              bounds := some ⟨b0.p0 * (1 - bb) + b1.p0 * bb,
                              b0.p1 * (1 - bb) + b1.p1 * bb,
                              b0.p2 * (1 - bb) + b1.p2 * bb,
                              b0.p3 * (1 - bb) + b1.p3 * bb⟩
              interpolate := some true
              keyframe := some false }))) ∧
    Track.fromJSON interpData = .ok interpTrack ∧
    interpTrack.getFeature 15 =
      .ok (some { frame := 15, bounds := some ⟨5, 5, 15, 15⟩,
                  interpolate := some true, keyframe := some false },
           some (mkKeyframe 10 ⟨0,0,10,10⟩ (some true)),
           some (mkKeyframe 20 ⟨10,10,20,20⟩ none)) := by
  have hgen : ∀ (frame : Nat) (d0 d1 : Feature) (b0 b1 : RectBounds),
      d0.bounds = some b0 → d1.bounds = some b1 →
      d0.frame < frame → frame < d1.frame →
      (truthy d0.interpolate = false → Track.interpolate frame d0 d1 = .ok none) ∧
      (truthy d0.interpolate = true →
        ∃ bb : Rat,
          bb = |(frame : Rat) - (d0.frame : Rat)| / ((d1.frame : Rat) - (d0.frame : Rat)) ∧
          Track.interpolate frame d0 d1 = .ok (some
            { frame := frame
              bounds := some ⟨b0.p0 * (1 - bb) + b1.p0 * bb,
                              b0.p1 * (1 - bb) + b1.p1 * bb,
                              b0.p2 * (1 - bb) + b1.p2 * bb,
                              b0.p3 * (1 - bb) + b1.p3 * bb⟩
              interpolate := some true
              keyframe := some false })) := by
    intro frame d0 d1 b0 b1 hb0 hb1 h01 h12
    constructor
    · intro hfalse
      unfold Track.interpolate
      rw [if_pos hfalse]
    · intro htrue
      have hlen : (0 : Rat) < (d1.frame : Rat) - (d0.frame : Rat) := by
        rw [sub_pos]
        exact_mod_cast Nat.lt_trans h01 h12
      have hnum : (0 : Rat) < (frame : Rat) - (d0.frame : Rat) := by
        rw [sub_pos]
        exact_mod_cast h01
      have habs : |((frame : Rat) - (d0.frame : Rat)) / ((d1.frame : Rat) - (d0.frame : Rat))| =
          |(frame : Rat) - (d0.frame : Rat)| / ((d1.frame : Rat) - (d0.frame : Rat)) := by
        rw [abs_div, abs_of_pos hlen]
      refine ⟨_, rfl, ?_⟩
      unfold Track.interpolate
      rw [if_neg (by rw [htrue]; simp)]
      rw [hb0, hb1]
      have hbpos : (0 : Rat) <
          |(frame : Rat) - (d0.frame : Rat)| / ((d1.frame : Rat) - (d0.frame : Rat)) := by
        apply div_pos _ hlen
        rw [abs_of_pos hnum]
        exact hnum
      have hblt : |(frame : Rat) - (d0.frame : Rat)| / ((d1.frame : Rat) - (d0.frame : Rat)) < 1 := by
        rw [abs_of_pos hnum]
        rw [div_lt_one hlen]
        have : (frame : Rat) < (d1.frame : Rat) := by exact_mod_cast h12
        linarith
      have hk1 : decide (|(frame : Rat) - (d0.frame : Rat)| / ((d1.frame : Rat) - (d0.frame : Rat)) = 0) = false := by
        apply decide_eq_false
        exact ne_of_gt hbpos
      have hk2 : decide (1 - |(frame : Rat) - (d0.frame : Rat)| / ((d1.frame : Rat) - (d0.frame : Rat)) = 0) = false := by
        apply decide_eq_false
        have : (0 : Rat) < 1 - |(frame : Rat) - (d0.frame : Rat)| / ((d1.frame : Rat) - (d0.frame : Rat)) := by
          linarith
        exact ne_of_gt this
      simp [habs, hk1, hk2]
      exact ⟨ne_of_gt hnum, ne_of_gt hlen⟩
  refine ⟨hgen, rfl, ?_⟩
  have h15 : sparseGet interpTrack.features 15 = none := rfl
  have hsurr : getSurroundingElements interpTrack.featureIndex
      (binarySearch interpTrack.featureIndex 15) = some (10, 20) := rfl
  have hd0 : sparseGet interpTrack.features 10 =
      some (mkKeyframe 10 ⟨0,0,10,10⟩ (some true)) := rfl
  have hd1 : sparseGet interpTrack.features 20 =
      some (mkKeyframe 20 ⟨10,10,20,20⟩ none) := rfl
  obtain ⟨bb, hbb, hinterp⟩ :=
    (hgen 15 (mkKeyframe 10 ⟨0,0,10,10⟩ (some true)) (mkKeyframe 20 ⟨10,10,20,20⟩ none)
      ⟨0,0,10,10⟩ ⟨10,10,20,20⟩ rfl rfl (by norm_num [mkKeyframe]) (by norm_num [mkKeyframe])).2 rfl
  have hbbval : bb = mkRat 1 2 := by
    rw [hbb]
    norm_num [mkKeyframe, Rat.mkRat_eq_div]
  rw [hbbval] at hinterp
  have hbval : (⟨(0 : Rat) * (1 - mkRat 1 2) + 10 * mkRat 1 2,
                 (0 : Rat) * (1 - mkRat 1 2) + 10 * mkRat 1 2,
                 (10 : Rat) * (1 - mkRat 1 2) + 20 * mkRat 1 2,
                 (10 : Rat) * (1 - mkRat 1 2) + 20 * mkRat 1 2⟩ : RectBounds)
      = (⟨5, 5, 15, 15⟩ : RectBounds) := by
    norm_num [Rat.mkRat_eq_div]
  unfold Track.getFeature
  rw [h15]
  rw [if_neg (by decide)]
  simp only [hsurr, hd0, hd1, hinterp, Except.map_ok]
  simp [mkKeyframe, Feature.mk.injEq, RectBounds.mk.injEq]
  norm_num [Rat.mkRat_eq_div]
  rfl

/-- C3 (witness): the interpolation law instantiated at frame 15 between the
two fixture keyframes. -/
theorem c3_witness :
    ((mkKeyframe 10 ⟨0,0,10,10⟩ (some true)).bounds = some ⟨0,0,10,10⟩ ∧
     (mkKeyframe 20 ⟨10,10,20,20⟩ none).bounds = some ⟨10,10,20,20⟩ ∧
     (mkKeyframe 10 ⟨0,0,10,10⟩ (some true)).frame < 15 ∧
     15 < (mkKeyframe 20 ⟨10,10,20,20⟩ none).frame) ∧
    ((truthy (mkKeyframe 10 ⟨0,0,10,10⟩ (some true)).interpolate = false →
        Track.interpolate 15 (mkKeyframe 10 ⟨0,0,10,10⟩ (some true))
          (mkKeyframe 20 ⟨10,10,20,20⟩ none) = .ok none) ∧
     (truthy (mkKeyframe 10 ⟨0,0,10,10⟩ (some true)).interpolate = true →
        ∃ bb : Rat,
          bb = |(15 : Rat) - ((mkKeyframe 10 ⟨0,0,10,10⟩ (some true)).frame : Rat)| /
            (((mkKeyframe 20 ⟨10,10,20,20⟩ none).frame : Rat) -
              ((mkKeyframe 10 ⟨0,0,10,10⟩ (some true)).frame : Rat)) ∧
          Track.interpolate 15 (mkKeyframe 10 ⟨0,0,10,10⟩ (some true))
              (mkKeyframe 20 ⟨10,10,20,20⟩ none) = .ok (some
            { frame := 15
              bounds := some ⟨(0 : Rat) * (1 - bb) + 10 * bb,
                              (0 : Rat) * (1 - bb) + 10 * bb,
                              (10 : Rat) * (1 - bb) + 20 * bb,
                              (10 : Rat) * (1 - bb) + 20 * bb⟩
              interpolate := some true
              keyframe := some false }))) :=
  ⟨⟨rfl, rfl, by decide, by decide⟩,
   c3_interpolation.1 15 (mkKeyframe 10 ⟨0,0,10,10⟩ (some true))
     (mkKeyframe 20 ⟨10,10,20,20⟩ none) ⟨0,0,10,10⟩ ⟨10,10,20,20⟩
     rfl rfl (by decide) (by decide)⟩

theorem mem_of_sparseGet {l : List (Option α)} {i : Nat} {f : α}
    (h : sparseGet l i = some f) : some f ∈ l := by
  rw [sparseGet_def] at h
  cases hg : l[i]? with
  | none =>
    rw [hg] at h
    simp at h
  | some o =>
    rw [hg] at h
    simp at h
    subst h
    exact List.mem_iff_getElem?.mpr ⟨i, hg⟩

theorem foldlM_except_ok_forall {ε : Type} {α β : Type} (step : β → α → Except ε β)
    (Q : α → Prop) (hstep : ∀ b a b2, step b a = .ok b2 → Q a) (l : List α) :
    ∀ b0 b1, l.foldlM step b0 = .ok b1 → ∀ a ∈ l, Q a := by
  induction l with
  | nil =>
    intro b0 b1 h a ha
    simp at ha
  | cons x xs ih =>
    intro b0 b1 h a ha
    rw [List.foldlM_cons] at h
    cases hx : step b0 x with
    | error e =>
      rw [hx] at h
      exact Except.noConfusion h
    | ok b2 =>
      rw [hx] at h
      simp only [Bind.bind, Except.bind] at h
      rcases List.mem_cons.mp ha with rfl | ha
      · exact hstep b0 a b2 hx
      · exact ih b2 b1 h a ha

/-- C1 (amended): a successful construction establishes the keyframe/bounds
equivalence for every stored feature (the constructor throws on any violation). -/
theorem c1_amended (trackId : Nat) (p : TrackParams) (t : Track)
    (h : Track.construct trackId p = .ok t) :
    ∀ i f, sparseGet t.features i = some f →
      (truthy f.keyframe = true ↔ f.bounds.isSome = true) := by
  unfold Track.construct at h
  cases hs : sanityCheckFeatures p.features with
  | error e =>
    rw [hs] at h
    exact Except.noConfusion h
  | ok u =>
    rw [hs] at h
    cases hr : repopulateInterpolatedFrames p.features with
    | error e =>
      rw [hr] at h
      exact Except.noConfusion h
    | ok idx =>
      rw [hr] at h
      simp only [Except.ok.injEq] at h
      subst h
      intro i f hf
      have hmem : some f ∈ p.features := mem_of_sparseGet hf
      have hq : truthy f.keyframe = f.bounds.isSome := by
        have hr2 := hr
        unfold repopulateInterpolatedFrames at hr2
        have hall := foldlM_except_ok_forall _
          (fun of => ∀ g, of = some g → truthy g.keyframe = g.bounds.isSome)
          ?_ p.features [] idx hr2 (some f) hmem f rfl
        · exact hall
        · intro b a b2 hstep g hg
          subst hg
          simp only at hstep
          by_cases hc : truthy g.keyframe != g.bounds.isSome
          · rw [if_pos hc] at hstep
            simp at hstep
          · simp only [bne_iff_ne, ne_eq, Decidable.not_not] at hc
            exact hc
      rw [hq]

/-- C1 (witness): the invariant holds for the stored feature of the fixture
track built by the constructor. -/
theorem c1_witness :
    Track.construct 6 { features := soloTrack.features
                        begin := ((3 : Nat) : WithTop Nat)
                        «end» := ((3 : Nat) : WithTop Nat) } = .ok soloTrack ∧
    (∀ i f, sparseGet soloTrack.features i = some f →
      (truthy f.keyframe = true ↔ f.bounds.isSome = true)) :=
  ⟨by rfl,
   c1_amended 6 { features := soloTrack.features
                  begin := ((3 : Nat) : WithTop Nat)
                  «end» := ((3 : Nat) : WithTop Nat) } soloTrack (by rfl)⟩

theorem setFeature_ok_of_keyframe_true (t : Track) (feature : Feature)
    (geometry : List GeoFeature) (hk : feature.keyframe = some true) :
    ∃ r, t.setFeature feature geometry = .ok r := by
  unfold Track.setFeature
  have hm0 : (Feature.spread ((sparseGet t.features feature.frame).getD
      { frame := feature.frame }) feature).keyframe = some true := by
    simp [Feature.spread, jsField, hk]
  rcases hb : feature.bounds with _ | b
  · simp only [hb]
    rw [hm0]
    exact ⟨_, rfl⟩
  · simp only [hb]
    rw [hm0]
    exact ⟨_, rfl⟩

/-- C6 (amended): `toggleKeyframe` validates before mutation: whenever it
raises, the state carried by the error is the unchanged track (its internal
`setFeature` calls always pass `keyframe = true` and cannot raise, so the
only raises are the inherited `getFeature` consistency error and the
only-keyframe error, both before any mutation).  `setFeature` itself is the
exception to the claim (see the counterexample). -/
theorem c6_amended (t : Track) (frame : Nat) (m : String) (t2 : Track)
    (h : t.toggleKeyframe frame = .error (m, t2)) : t2 = t := by
  unfold Track.toggleKeyframe at h
  cases hci : t.canInterpolate frame with
  | error me =>
    rw [hci] at h
    simp only [Except.error.injEq, Prod.mk.injEq] at h
    exact h.2.symm
  | ok r =>
    obtain ⟨⟨real, lower, upper⟩, b⟩ := r
    rw [hci] at h
    simp only at h
    by_cases h1 : (real.isSome && decide (t.length = some 1)) = true
    · rw [if_pos h1] at h
      simp only [Except.error.injEq, Prod.mk.injEq] at h
      exact h.2.symm
    · rw [if_neg h1] at h
      by_cases h2 : real.isSome = true ∧ truthy (real.bind Feature.keyframe) = false
      · rw [dif_pos h2] at h
        obtain ⟨r2, hr2⟩ := setFeature_ok_of_keyframe_true t
          { (real.get h2.1) with frame := frame, keyframe := some true } [] rfl
        rw [hr2] at h
        exact Except.noConfusion h
      · rw [dif_neg h2] at h
        by_cases h3 : ((lower.isSome || upper.isSome) &&
            !truthy (real.bind Feature.keyframe)) = true
        · rw [if_pos h3] at h
          cases hif : toggleInterTarget frame lower upper with
          | none =>
            rw [hif] at h
            exact Except.noConfusion h
          | some g =>
            rw [hif] at h
            simp only at h
            obtain ⟨r2, hr2⟩ := setFeature_ok_of_keyframe_true t
              { g with frame := frame, keyframe := some true } [] rfl
            rw [hr2] at h
            exact Except.noConfusion h
        · rw [if_neg h3] at h
          by_cases h4 : truthy (real.bind Feature.keyframe) = true
          · rw [if_pos h4] at h
            exact Except.noConfusion h
          · rw [if_neg h4] at h
            exact Except.noConfusion h

/-- C6 (witness): toggling the only keyframe of the fixture track raises and
the carried state equals the original track. -/
theorem c6_witness :
    soloTrack.toggleKeyframe 3 =
      .error ("This is the only keyframe in Track: it cannot be removed", soloTrack) ∧
    soloTrack = soloTrack :=
  ⟨by rfl,
   c6_amended soloTrack 3 "This is the only keyframe in Track: it cannot be removed"
     soloTrack (by rfl)⟩

theorem foldlM_except_ok_of_forall {ε : Type} {α β : Type} (step : β → α → Except ε β)
    (l : List α) (h : ∀ a ∈ l, ∀ b, ∃ b2, step b a = .ok b2) :
    ∀ b0, ∃ b1, l.foldlM step b0 = .ok b1 := by
  induction l with
  | nil =>
    intro b0
    exact ⟨b0, rfl⟩
  | cons x xs ih =>
    intro b0
    obtain ⟨b2, hb2⟩ := h x (List.mem_cons_self _ _) b0
    obtain ⟨b1, hb1⟩ := ih (fun a ha b => h a (List.mem_cons_of_mem _ ha) b) b2
    refine ⟨b1, ?_⟩
    rw [List.foldlM_cons, hb2]
    simpa only [Bind.bind, Except.bind] using hb1

theorem buildSparse_stored {fs : List (Option Feature)}
    (hval : ∀ of ∈ fs, ∃ f, of = some f ∧ f.bounds.isSome = true ∧ f.keyframe ≠ some false) :
    ∀ k f', sparseGet (buildSparseFeatures fs) k = some f' →
      f'.frame = k ∧ f'.keyframe = some true ∧ f'.bounds.isSome = true := by
  intro k f' h
  unfold buildSparseFeatures at h
  rcases buildSparse_foldl_mem fs [] k f' h with h0 | ⟨f, hf, he, hk⟩
  · simp [sparseGet] at h0
  · obtain ⟨g, hg, hgb, hgk⟩ := hval (some f) hf
    have hfg : f = g := by
      simpa using hg
    subst hfg
    subst he
    refine ⟨hk ▸ rfl, ?_, hgb⟩
    unfold forceKeyframe jsField
    cases hkf : f.keyframe with
    | none => rfl
    | some b =>
      cases b with
      | true => rfl
      | false => exact absurd hkf hgk

/-- C4: for a valid dense transport record (all features carry bounds and are
not explicitly marked non-keyframe, with pairwise distinct frames),
`fromRecord` then `serialize` reproduces `trackId`, `begin`, `end`, `meta`,
`attributes` and `confidencePairs`, and emits the same features as a set, in
ascending frame order, with every `keyframe` forced to `true`. -/
theorem c4_round_trip (R : TrackData)
    (hval : ∀ of ∈ R.features, ∃ f, of = some f ∧ f.bounds.isSome = true ∧ f.keyframe ≠ some false)
    (hnd : ((R.features.filterMap id).map Feature.frame).Nodup) :
    ∃ t, Track.fromJSON R = .ok t ∧
      t.serialize.trackId = R.trackId ∧
      t.serialize.begin = R.begin ∧
      t.serialize.«end» = R.«end» ∧
      t.serialize.meta = R.meta ∧
      t.serialize.attributes = R.attributes ∧
      t.serialize.confidencePairs = R.confidencePairs ∧
      t.serialize.features = t.condenseFeatures.map some ∧
      List.Perm t.condenseFeatures
        ((R.features.filterMap id).map (fun f => { f with keyframe := some true })) ∧
      (t.condenseFeatures.map Feature.frame).Pairwise (· < ·) := by
  have hstored := buildSparse_stored hval
  have hsanity : sanityCheckFeatures (buildSparseFeatures R.features) = .ok () := by
    unfold sanityCheckFeatures
    cases hfind : (buildSparseFeatures R.features).enum.find? (fun p => p.2.isSome) with
    | none => rfl
    | some pair =>
      obtain ⟨i, of⟩ := pair
      have hp : of.isSome = true := by simpa using List.find?_some hfind
      rcases Option.isSome_iff_exists.mp hp with ⟨f, rfl⟩
      have hmem : (i, some f) ∈ (buildSparseFeatures R.features).enum :=
        List.mem_of_find?_eq_some hfind
      have hget : (buildSparseFeatures R.features)[i]? = some (some f) :=
        List.mk_mem_enum_iff_getElem?.mp hmem
      have hsp : sparseGet (buildSparseFeatures R.features) i = some f := by
        rw [sparseGet_def, hget]
        rfl
      have hfr := (hstored i f hsp).1
      simp [hfr]
  have hrep : ∃ idx, repopulateInterpolatedFrames (buildSparseFeatures R.features) = .ok idx := by
    unfold repopulateInterpolatedFrames
    apply foldlM_except_ok_of_forall
    intro of hof b
    cases of with
    | none => exact ⟨b, rfl⟩
    | some f =>
      rcases List.mem_iff_getElem?.mp hof with ⟨n, hn⟩
      have hsp : sparseGet (buildSparseFeatures R.features) n = some f := by
        rw [sparseGet_def, hn]
        rfl
      obtain ⟨hfr2, hkf, hbd⟩ := hstored n f hsp
      refine ⟨b ++ [f.frame], ?_⟩
      simp [hkf, hbd, truthy]
  obtain ⟨idx, hidx⟩ := hrep
  have hforce : ∀ f ∈ R.features.filterMap id,
      forceKeyframe f = { f with keyframe := some true } := by
    intro f hf
    rcases List.mem_filterMap.mp hf with ⟨a, ha, hida⟩
    have haf : a = some f := by simpa using hida
    subst haf
    obtain ⟨g, hg, hgb, hgk⟩ := hval (some f) ha
    have hfg : f = g := by simpa using hg
    subst hfg
    unfold forceKeyframe jsField
    cases hkf : f.keyframe with
    | none => rfl
    | some b =>
      cases b with
      | true => rfl
      | false => exact absurd hkf hgk
  have hcon : Track.fromJSON R = .ok
      { trackId := R.trackId
        meta := R.meta
        attributes := R.attributes
        confidencePairs := R.confidencePairs
        features := buildSparseFeatures R.features
        featureIndex := idx
        begin := R.begin
        «end» := R.«end»
        revision := 1 } := by
    unfold Track.fromJSON Track.construct
    simp only [hsanity, hidx]
  refine ⟨_, hcon, rfl, rfl, rfl, rfl, rfl, rfl, rfl, ?_, ?_⟩
  · have hperm := buildSparse_condense_perm R.features [] hnd
      (fun f hf => by simp [sparseGet])
    have hbs : Track.condenseFeatures
        { trackId := R.trackId
          meta := R.meta
          attributes := R.attributes
          confidencePairs := R.confidencePairs
          features := buildSparseFeatures R.features
          featureIndex := idx
          begin := R.begin
          «end» := R.«end»
          revision := 1 } = condense (buildSparseFeatures R.features) := rfl
    rw [hbs]
    unfold buildSparseFeatures
    refine List.Perm.trans hperm ?_
    rw [show condense ([] : List (Option Feature)) = [] from rfl, List.nil_append]
    rw [List.map_congr_left hforce]
  · apply List.pairwise_map.mpr
    have := condense_pairwise_frame (l := buildSparseFeatures R.features)
      (fun i f hf => (hstored i f hf).1)
    exact this

/-- C4 (witness): the round trip instantiated on the fixture record whose
features are listed out of frame order. -/
theorem c4_witness :
    ((∀ of ∈ roundTripData.features,
        ∃ f, of = some f ∧ f.bounds.isSome = true ∧ f.keyframe ≠ some false) ∧
      ((roundTripData.features.filterMap id).map Feature.frame).Nodup) ∧
    (∃ t, Track.fromJSON roundTripData = .ok t ∧
      t.serialize.trackId = roundTripData.trackId ∧
      t.serialize.begin = roundTripData.begin ∧
      t.serialize.«end» = roundTripData.«end» ∧
      t.serialize.meta = roundTripData.meta ∧
      t.serialize.attributes = roundTripData.attributes ∧
      t.serialize.confidencePairs = roundTripData.confidencePairs ∧
      t.serialize.features = t.condenseFeatures.map some ∧
      List.Perm t.condenseFeatures
        ((roundTripData.features.filterMap id).map (fun f => { f with keyframe := some true })) ∧
      (t.condenseFeatures.map Feature.frame).Pairwise (· < ·)) :=
  ⟨⟨by
      intro of hof
      rcases List.mem_cons.mp hof with rfl | hof
      · exact ⟨_, rfl, rfl, by decide⟩
      · rcases List.mem_cons.mp hof with rfl | hof
        · exact ⟨_, rfl, rfl, by decide⟩
        · simp at hof,
    by decide⟩,
   c4_round_trip roundTripData
     (by
       intro of hof
       rcases List.mem_cons.mp hof with rfl | hof
       · exact ⟨_, rfl, rfl, by decide⟩
       · rcases List.mem_cons.mp hof with rfl | hof
         · exact ⟨_, rfl, rfl, by decide⟩
         · simp at hof)
     (by decide)⟩

theorem buildSparse_stored2 {fs : List (Option Feature)}
    (hval : ∀ f : Feature, some f ∈ fs → f.bounds.isSome = true ∧ f.keyframe ≠ some false) :
    ∀ k f', sparseGet (buildSparseFeatures fs) k = some f' →
      f'.frame = k ∧ f'.keyframe = some true ∧ f'.bounds.isSome = true := by
  intro k f' h
  unfold buildSparseFeatures at h
  rcases buildSparse_foldl_mem fs [] k f' h with h0 | ⟨f, hf, he, hk⟩
  · simp [sparseGet] at h0
  · obtain ⟨hgb, hgk⟩ := hval f hf
    subst he
    refine ⟨hk ▸ rfl, ?_, hgb⟩
    unfold forceKeyframe jsField
    cases hkf : f.keyframe with
    | none => rfl
    | some b =>
      cases b with
      | true => rfl
      | false => exact absurd hkf hgk

theorem fromJSON_ok (R : TrackData)
    (hval : ∀ f : Feature, some f ∈ R.features → f.bounds.isSome = true ∧ f.keyframe ≠ some false) :
    ∃ idx, Track.fromJSON R = .ok
      { trackId := R.trackId
        meta := R.meta
        attributes := R.attributes
        confidencePairs := R.confidencePairs
        features := buildSparseFeatures R.features
        featureIndex := idx
        begin := R.begin
        «end» := R.«end»
        revision := 1 } := by
  have hstored := buildSparse_stored2 hval
  have hsanity : sanityCheckFeatures (buildSparseFeatures R.features) = .ok () := by
    unfold sanityCheckFeatures
    cases hfind : (buildSparseFeatures R.features).enum.find? (fun p => p.2.isSome) with
    | none => rfl
    | some pair =>
      obtain ⟨i, of⟩ := pair
      have hp : of.isSome = true := by simpa using List.find?_some hfind
      rcases Option.isSome_iff_exists.mp hp with ⟨f, rfl⟩
      have hmem : (i, some f) ∈ (buildSparseFeatures R.features).enum :=
        List.mem_of_find?_eq_some hfind
      have hget : (buildSparseFeatures R.features)[i]? = some (some f) :=
        List.mk_mem_enum_iff_getElem?.mp hmem
      have hsp : sparseGet (buildSparseFeatures R.features) i = some f := by
        rw [sparseGet_def, hget]
        rfl
      have hfr := (hstored i f hsp).1
      simp [hfr]
  have hrep : ∃ idx, repopulateInterpolatedFrames (buildSparseFeatures R.features) = .ok idx := by
    unfold repopulateInterpolatedFrames
    apply foldlM_except_ok_of_forall
    intro of hof b
    cases of with
    | none => exact ⟨b, rfl⟩
    | some f =>
      rcases List.mem_iff_getElem?.mp hof with ⟨n, hn⟩
      have hsp : sparseGet (buildSparseFeatures R.features) n = some f := by
        rw [sparseGet_def, hn]
        rfl
      obtain ⟨hfr2, hkf, hbd⟩ := hstored n f hsp
      refine ⟨b ++ [f.frame], ?_⟩
      simp [hkf, hbd, truthy]
  obtain ⟨idx, hidx⟩ := hrep
  refine ⟨idx, ?_⟩
  unfold Track.fromJSON Track.construct
  simp only [hsanity, hidx]

theorem buildSparse_frames_nodup (fs : List (Option Feature)) (n : Nat)
    (hfr : ∀ j g, sparseGet fs j = some g → g.frame = n + j) :
    ((fs.filterMap id).map Feature.frame).Nodup := by
  have hp := (condense_pairwise_frame_aux fs n hfr).1
  have hm : ((fs.filterMap id).map Feature.frame).Pairwise (· < ·) := by
    apply List.pairwise_map.mpr
    exact hp
  exact hm.imp Nat.ne_of_lt

theorem buildSparse_get_shift (fs : List (Option Feature)) (n : Nat)
    (hfr : ∀ j g, sparseGet fs j = some g → g.frame = n + j) (k : Nat) :
    sparseGet (buildSparseFeatures fs) k =
      if n ≤ k then (sparseGet fs (k - n)).map forceKeyframe else none := by
  have hnd := buildSparse_frames_nodup fs n hfr
  by_cases hnk : n ≤ k
  · rw [if_pos hnk]
    cases hg : sparseGet fs (k - n) with
    | some g =>
      have hgf : g.frame = k := by
        have := hfr (k - n) g hg
        omega
      have hmem : some g ∈ fs := mem_of_sparseGet hg
      have := buildSparse_foldl_get_self fs [] hnd g hmem
      unfold buildSparseFeatures
      rw [← hgf]
      exact this
    | none =>
      simp only [Option.map_none']
      unfold buildSparseFeatures
      rw [buildSparse_foldl_preserve fs [] k ?_]
      · simp [sparseGet]
      · intro f hf hfk
        rcases List.mem_iff_getElem?.mp hf with ⟨j, hj⟩
        have hsp : sparseGet fs j = some f := by
          rw [sparseGet_def, hj]
          rfl
        have := hfr j f hsp
        have hj2 : j = k - n := by omega
        rw [hj2, hg] at hsp
        exact Option.noConfusion hsp
  · rw [if_neg hnk]
    unfold buildSparseFeatures
    rw [buildSparse_foldl_preserve fs [] k ?_]
    · simp [sparseGet]
    · intro f hf hfk
      rcases List.mem_iff_getElem?.mp hf with ⟨j, hj⟩
      have hsp : sparseGet fs j = some f := by
        rw [sparseGet_def, hj]
        rfl
      have := hfr j f hsp
      omega

theorem forceKeyframe_eq_self {f : Feature} (hk : f.keyframe = some true) :
    forceKeyframe f = f := by
  obtain ⟨fr, fl, it, kf, bd, geo, len, att, hd, tl⟩ := f
  change kf = some true at hk
  subst hk
  rfl

/-- C5: on any well-formed track, when `canSplit(frame)` holds (begin < frame
<= end), `split(frame, id1, id2)` succeeds with a first track keeping `begin`,
ending at the previous keyframe at or before `frame - 1` (falling back to
`begin`) and holding exactly the stored features in `[begin, frame)`, and a
second track keeping `end`, beginning at the next keyframe at or after `frame`
(falling back to `end`) and holding exactly the stored features from `frame`
on. -/
theorem c5_split (t : Track) (frame id1 id2 : Nat)
    (hwf : t.wf = true) (hcs : t.canSplit frame = true) :
    ∃ t1 t2, t.split frame id1 id2 = .ok (t1, t2) ∧
      t1.begin = t.begin ∧
      t1.«end» = (match t.getPreviousKeyframe ((frame : Int) - 1) with
                  | some k => (k : WithTop Nat)
                  | none => t.begin) ∧
      (∀ i : Nat, sparseGet t1.features i =
        if t.begin ≤ (i : WithTop Nat) ∧ i < frame then sparseGet t.features i else none) ∧
      t2.«end» = t.«end» ∧
      t2.begin = (match t.getNextKeyframe frame with
                  | some k => (k : WithTop Nat)
                  | none => t.«end») ∧
      (∀ i : Nat, sparseGet t2.features i =
        if frame ≤ i then sparseGet t.features i else none) := by
  have hstored := wf_stored hwf
  have hfr : ∀ i f, sparseGet t.features i = some f → f.frame = i :=
    fun i f h => (hstored i f h).1
  have hcs2 := hcs
  unfold Track.canSplit at hcs2
  rw [Bool.and_eq_true, decide_eq_true_eq, decide_eq_true_eq] at hcs2
  obtain ⟨hbf, hfe⟩ := hcs2
  have hbt : t.begin ≠ ⊤ := ne_top_of_lt hbf
  obtain ⟨b, hbeq0⟩ := WithTop.ne_top_iff_exists.mp hbt
  have hbeq : (b : WithTop Nat) = t.begin := hbeq0
  have hblt : b < frame := by
    rw [← hbeq] at hbf
    exact WithTop.coe_lt_coe.mp hbf
  have hfr1 : 1 ≤ frame := by omega
  have hbg := wf_begin hwf
  rw [← hbeq] at hbg
  have hhead : (presentIndices t.features).head? = some b := by
    cases hh : (presentIndices t.features).head? with
    | none =>
      rw [hh] at hbg
      exact absurd hbg (by simp)
    | some k =>
      rw [hh] at hbg
      simp only at hbg
      have hbk : b = k := WithTop.coe_eq_coe.mp hbg
      rw [hbk]
  have hmin : ∀ x ∈ presentIndices t.features, b ≤ x :=
    head_le_of_pairwise_lt (presentIndices_pairwise _) hhead
  have hminget : ∀ i, (sparseGet t.features i).isSome = true → b ≤ i := by
    intro i hi
    exact hmin i (mem_presentIndices.mpr hi)
  have hmemval : ∀ f : Feature, some f ∈ t.features →
      f.bounds.isSome = true ∧ f.keyframe ≠ some false := by
    intro f hf
    rcases List.mem_iff_getElem?.mp hf with ⟨j, hj⟩
    have hsp : sparseGet t.features j = some f := by
      rw [sparseGet_def, hj]
      rfl
    obtain ⟨-, hkf, hbd⟩ := hstored j f hsp
    refine ⟨hbd, ?_⟩
    rw [hkf]
    simp
  have hslice : jsSlice t.features t.begin frame = (t.features.drop b).take (frame - b) := by
    rw [← hbeq]
    rfl
  have hval1 : ∀ f : Feature, some f ∈ jsSlice t.features t.begin frame →
      f.bounds.isSome = true ∧ f.keyframe ≠ some false := by
    intro f hf
    rw [hslice] at hf
    exact hmemval f (((List.take_sublist _ _).trans (List.drop_sublist _ _)).subset hf)
  have hval2 : ∀ f : Feature, some f ∈ t.features.drop frame →
      f.bounds.isSome = true ∧ f.keyframe ≠ some false := by
    intro f hf
    exact hmemval f ((List.drop_sublist _ _).subset hf)
  have hsliceget : ∀ j, sparseGet ((t.features.drop b).take (frame - b)) j =
      if j < frame - b then sparseGet t.features (b + j) else none := by
    intro j
    rw [sparseGet_take, sparseGet_drop]
  have hfrslice : ∀ j g, sparseGet ((t.features.drop b).take (frame - b)) j = some g →
      g.frame = b + j := by
    intro j g hg
    rw [hsliceget] at hg
    by_cases hj : j < frame - b
    · rw [if_pos hj] at hg
      exact hfr (b + j) g hg
    · rw [if_neg hj] at hg
      exact absurd hg (by simp)
  have hfrdrop : ∀ j g, sparseGet (t.features.drop frame) j = some g →
      g.frame = frame + j := by
    intro j g hg
    rw [sparseGet_drop] at hg
    exact hfr (frame + j) g hg
  have hT1get : ∀ i : Nat,
      sparseGet (buildSparseFeatures (jsSlice t.features t.begin frame)) i =
      if t.begin ≤ (i : WithTop Nat) ∧ i < frame then sparseGet t.features i else none := by
    intro i
    rw [hslice, buildSparse_get_shift _ b hfrslice i, hsliceget, ← hbeq]
    by_cases hbi : b ≤ i
    · rw [if_pos hbi]
      by_cases hif : i < frame
      · have hcond : ((b : WithTop Nat) ≤ (i : WithTop Nat) ∧ i < frame) :=
          ⟨WithTop.coe_le_coe.mpr hbi, hif⟩
        rw [if_pos hcond, if_pos (by omega : i - b < frame - b)]
        have hba : b + (i - b) = i := by omega
        rw [hba]
        cases hg : sparseGet t.features i with
        | none => rfl
        | some f =>
          obtain ⟨-, hkf, -⟩ := hstored i f hg
          simp [forceKeyframe_eq_self hkf]
      · rw [if_neg (by omega : ¬ i - b < frame - b),
            if_neg (fun hc => hif hc.2)]
        rfl
    · rw [if_neg hbi,
          if_neg (fun hc => hbi (WithTop.coe_le_coe.mp hc.1))]
  have hT2get : ∀ i : Nat,
      sparseGet (buildSparseFeatures (t.features.drop frame)) i =
      if frame ≤ i then sparseGet t.features i else none := by
    intro i
    rw [buildSparse_get_shift _ frame hfrdrop i]
    by_cases hfi : frame ≤ i
    · rw [if_pos hfi, if_pos hfi, sparseGet_drop]
      have hfa : frame + (i - frame) = i := by omega
      rw [hfa]
      cases hg : sparseGet t.features i with
      | none => rfl
      | some f =>
        obtain ⟨-, hkf, -⟩ := hstored i f hg
        simp [forceKeyframe_eq_self hkf]
    · rw [if_neg hfi, if_neg hfi]
  have hend1 : jsOrNat (t.getPreviousKeyframe ((frame : Int) - 1)) t.begin =
      (match t.getPreviousKeyframe ((frame : Int) - 1) with
       | some k => (k : WithTop Nat)
       | none => t.begin) := by
    cases hp : t.getPreviousKeyframe ((frame : Int) - 1) with
    | none => rfl
    | some k =>
      simp only [jsOrNat]
      by_cases hk : k = 0
      · subst hk
        rw [if_pos rfl]
        have harg : ((frame : Int) - 1) = (((frame - 1 : Nat) : Nat) : Int) := by omega
        rw [harg] at hp
        have hps := (getPreviousKeyframe_eq_some_iff hfr (frame - 1) 0).mp hp
        have h0 : b ≤ 0 := hminget 0 hps.2.1
        have hb0 : b = 0 := by omega
        rw [← hbeq, hb0]
      · rw [if_neg hk]
  have hbeg2 : jsOrNat (t.getNextKeyframe frame) t.«end» =
      (match t.getNextKeyframe frame with
       | some k => (k : WithTop Nat)
       | none => t.«end») := by
    cases hp : t.getNextKeyframe frame with
    | none => rfl
    | some k =>
      simp only [jsOrNat]
      have hps := (getNextKeyframe_eq_some_iff hfr frame k).mp hp
      have hk0 : k ≠ 0 := by omega
      rw [if_neg hk0]
  obtain ⟨idx1, h1⟩ := fromJSON_ok
    { trackId := id1
      meta := t.meta
      begin := t.begin
      «end» := jsOrNat (t.getPreviousKeyframe ((frame : Int) - 1)) t.begin
      features := jsSlice t.features t.begin frame
      confidencePairs := t.confidencePairs
      attributes := t.attributes } hval1
  obtain ⟨idx2, h2⟩ := fromJSON_ok
    { trackId := id2
      meta := t.meta
      begin := jsOrNat (t.getNextKeyframe frame) t.«end»
      «end» := t.«end»
      features := t.features.drop frame
      confidencePairs := t.confidencePairs
      attributes := t.attributes } hval2
  refine ⟨{ trackId := id1
            meta := t.meta
            attributes := t.attributes
            confidencePairs := t.confidencePairs
            features := buildSparseFeatures (jsSlice t.features t.begin frame)
            featureIndex := idx1
            begin := t.begin
            «end» := jsOrNat (t.getPreviousKeyframe ((frame : Int) - 1)) t.begin
            revision := 1 },
          { trackId := id2
            meta := t.meta
            attributes := t.attributes
            confidencePairs := t.confidencePairs
            features := buildSparseFeatures (t.features.drop frame)
            featureIndex := idx2
            begin := jsOrNat (t.getNextKeyframe frame) t.«end»
            «end» := t.«end»
            revision := 1 }, ?_, rfl, hend1, hT1get, rfl, hbeg2, hT2get⟩
  unfold Track.split
  rw [hcs]
  simp only [Bool.not_true, Bool.false_eq_true, if_false]
  rw [h1, h2]

theorem c5_witness :
    splitTrack.wf = true ∧ splitTrack.canSplit 6 = true ∧
    ∃ t1 t2, splitTrack.split 6 100 200 = .ok (t1, t2) ∧
      t1.«end» = ((5 : Nat) : WithTop Nat) ∧ t2.begin = ((10 : Nat) : WithTop Nat) := by
  have hwf : splitTrack.wf = true := by decide
  have hcs : splitTrack.canSplit 6 = true := by decide
  obtain ⟨t1, t2, hok, hb1, he1, hf1, he2, hb2, hf2⟩ := c5_split splitTrack 6 100 200 hwf hcs
  refine ⟨hwf, hcs, t1, t2, hok, ?_, ?_⟩
  · rw [he1]
    have hprev : splitTrack.getPreviousKeyframe (((6 : Nat) : Int) - 1) = some 5 := by decide
    rw [hprev]
  · rw [hb2]
    have hnext : splitTrack.getNextKeyframe 6 = some 10 := by decide
    rw [hnext]

theorem notify_proj (t : Track) (e : Event) :
    (t.notify e).1.features = t.features ∧ (t.notify e).1.featureIndex = t.featureIndex ∧
    (t.notify e).1.begin = t.begin ∧ (t.notify e).1.«end» = t.«end» := by
  unfold Track.notify
  split <;> exact ⟨rfl, rfl, rfl, rfl⟩

theorem setType_proj (t : Track) (ty : String) (cv : Rat) (rep : Option String) :
    (t.setType ty cv rep).1.features = t.features ∧
    (t.setType ty cv rep).1.featureIndex = t.featureIndex ∧
    (t.setType ty cv rep).1.begin = t.begin ∧
    (t.setType ty cv rep).1.«end» = t.«end» := by
  unfold Track.setType
  split
  · exact notify_proj _ _
  · exact notify_proj _ _

theorem setAttribute_proj (t : Track) (key : String) (value : AttrVal) :
    (t.setAttribute key value).1.features = t.features ∧
    (t.setAttribute key value).1.featureIndex = t.featureIndex ∧
    (t.setAttribute key value).1.begin = t.begin ∧
    (t.setAttribute key value).1.«end» = t.«end» := by
  unfold Track.setAttribute
  exact notify_proj _ _

theorem getFeature_congr {u₁ u₂ : Track} (hf : u₂.features = u₁.features)
    (hi : u₂.featureIndex = u₁.featureIndex) (hb : u₂.begin = u₁.begin)
    (he : u₂.«end» = u₁.«end») (frame : Nat) :
    u₂.getFeature frame = u₁.getFeature frame := by
  unfold Track.getFeature
  rw [hf, hi, hb, he]

theorem mergeInv_congr {t0 : Track} {f : Nat} {u₁ u₂ : Track} (hinv : MergeInv t0 f u₁)
    (hf : u₂.features = u₁.features) (hi : u₂.featureIndex = u₁.featureIndex)
    (hb : u₂.begin = u₁.begin) (he : u₂.«end» = u₁.«end») : MergeInv t0 f u₂ := by
  obtain ⟨hA, hE, hC, hD, x, l, u, hB⟩ := hinv
  refine ⟨?_, ?_, ?_, ?_, x, l, u, ?_⟩
  · intro j y hy
    rw [hf]
    exact hA j y hy
  · rw [hf]
    exact hE
  · rw [hf, hi]
    exact hC
  · intro y hy
    rw [hi] at hy
    rw [hb, he]
    exact hD y hy
  · rw [getFeature_congr hf hi hb he]
    exact hB

theorem foldl_inv {α β : Type} (P : β → Prop) (step : β → α → β) (l : List α) (b0 : β)
    (hstep : ∀ b a, a ∈ l → P b → P (step b a)) (h0 : P b0) : P (l.foldl step b0) := by
  induction l generalizing b0 with
  | nil => exact h0
  | cons x xs ih =>
    rw [List.foldl_cons]
    exact ih _ (fun b a ha hb => hstep b a (List.mem_cons_of_mem _ ha) hb)
      (hstep b0 x (List.mem_cons_self _ _) h0)

theorem foldlM_except_inv {ε α β : Type} (P : β → Prop) (step : β → α → Except ε β)
    (l : List α) (b0 bf : β)
    (hstep : ∀ b a, a ∈ l → P b → ∀ b', step b a = .ok b' → P b')
    (h : l.foldlM step b0 = .ok bf) (h0 : P b0) : P bf := by
  induction l generalizing b0 with
  | nil =>
    simp only [List.foldlM_nil] at h
    cases h
    exact h0
  | cons x xs ih =>
    rw [List.foldlM_cons] at h
    cases hx : step b0 x with
    | error e =>
      rw [hx] at h
      simp only [Bind.bind, Except.bind] at h
      exact Except.noConfusion h
    | ok b1 =>
      rw [hx] at h
      simp only [Bind.bind, Except.bind] at h
      exact ih b1 (fun b a ha hb => hstep b a (List.mem_cons_of_mem _ ha) hb) h
        (hstep b0 x (List.mem_cons_self _ _) h0 b1 hx)

theorem listInsert_length_ne_one {l : List Nat} {g : Nat} (hne : l ≠ []) (hg : g ∉ l) :
    (listInsert l g).length ≠ 1 := by
  intro h1
  obtain ⟨x, hx⟩ := List.length_eq_one.mp h1
  obtain ⟨y, hy⟩ := List.exists_mem_of_ne_nil l hne
  have hgm : g ∈ listInsert l g := mem_listInsert.mpr (Or.inl rfl)
  have hym : y ∈ listInsert l g := mem_listInsert.mpr (Or.inr hy)
  rw [hx] at hgm hym
  simp only [List.mem_singleton] at hgm hym
  rw [← hym] at hgm
  rw [← hgm] at hy
  exact hg hy

theorem maybeExpandBounds_features (t : Track) (g : Nat) :
    (t.maybeExpandBounds g).1.features = t.features := by
  unfold Track.maybeExpandBounds
  split
  · exact (notify_proj _ _).1
  · split
    · exact (notify_proj _ _).1
    · rfl

theorem maybeExpandBounds_index (t : Track) (g : Nat) :
    (t.maybeExpandBounds g).1.featureIndex = t.featureIndex := by
  unfold Track.maybeExpandBounds
  split
  · exact (notify_proj _ _).2.1
  · split
    · exact (notify_proj _ _).2.1
    · rfl

theorem maybeExpandBounds_bounds (t : Track) (g : Nat) (hbe : t.begin ≤ t.«end») :
    (t.maybeExpandBounds g).1.begin ≤ t.begin ∧
    (t.maybeExpandBounds g).1.begin ≤ (g : WithTop Nat) ∧
    t.«end» ≤ (t.maybeExpandBounds g).1.«end» ∧
    (g : WithTop Nat) ≤ (t.maybeExpandBounds g).1.«end» := by
  unfold Track.maybeExpandBounds
  split
  · rename_i hlt
    obtain ⟨-, -, hb, he⟩ := notify_proj ({ t with begin := (g : WithTop Nat) })
      ⟨"bounds", EventPayload.bounds t.begin t.«end»⟩
    rw [hb, he]
    exact ⟨le_of_lt hlt, le_refl _, le_refl _, le_trans (le_of_lt hlt) hbe⟩
  · rename_i hge
    push_neg at hge
    split
    · rename_i hgt
      obtain ⟨-, -, hb, he⟩ := notify_proj ({ t with «end» := (g : WithTop Nat) })
        ⟨"bounds", EventPayload.bounds t.begin t.«end»⟩
      rw [hb, he]
      exact ⟨le_refl _, hge, le_of_lt hgt, le_refl _⟩
    · rename_i hle
      push_neg at hle
      exact ⟨le_refl _, hge, le_refl _, hle⟩

theorem afterSetCore_features (t : Track) (feature : Feature) (geometry : List GeoFeature) :
    (t.afterSetCore feature geometry).features =
      sparseSet (sparseSet t.features feature.frame (some (t.mergedOf feature)))
        feature.frame (some (t.storedOf feature geometry)) := rfl

theorem afterSetCore_index (t : Track) (feature : Feature) (geometry : List GeoFeature) :
    (t.afterSetCore feature geometry).featureIndex =
      listInsert t.featureIndex feature.frame := rfl

theorem setFeature_eq_ok (t : Track) (feature : Feature) (geometry : List GeoFeature)
    (hk : truthy (t.mergedOf feature).keyframe = true) :
    t.setFeature feature geometry =
      .ok ((t.afterSet feature geometry).1, t.storedOf feature geometry,
        (t.afterSet feature geometry).2) := by
  unfold Track.mergedOf at hk
  unfold Track.setFeature
  rcases hb : feature.bounds with _ | b
  · simp only [hb] at hk ⊢
    rw [hk]
    simp only [Bool.true_eq_false, if_false]
    unfold Track.afterSet Track.afterSetCore Track.storedOf Track.mergedOf
    simp only [hb]
  · simp only [hb] at hk ⊢
    rw [hk]
    simp only [Bool.true_eq_false, if_false]
    unfold Track.afterSet Track.afterSetCore Track.storedOf Track.mergedOf
    simp only [hb]

theorem setFeature_eq_error (t : Track) (feature : Feature) (geometry : List GeoFeature)
    (hk : truthy (t.mergedOf feature).keyframe = false) :
    t.setFeature feature geometry =
      .error ("setFeature must be called with keyframe=true OR to update an existing keyframe",
        { t with features := sparseSet t.features feature.frame (some (t.mergedOf feature)) }) := by
  unfold Track.mergedOf at hk
  unfold Track.setFeature Track.mergedOf
  rcases hb : feature.bounds with _ | b
  · simp only [hb] at hk ⊢
    rw [hk]
    rfl
  · simp only [hb] at hk ⊢
    rw [hk]
    rfl

theorem afterSet_effect (t : Track) (feature : Feature) (geometry : List GeoFeature)
    (hlen : (listInsert t.featureIndex feature.frame).length ≠ 1)
    (hbe : t.begin ≤ t.«end») :
    (∀ j, sparseGet (t.afterSet feature geometry).1.features j =
        if j = feature.frame then some (t.storedOf feature geometry)
        else sparseGet t.features j) ∧
    (t.afterSet feature geometry).1.featureIndex = listInsert t.featureIndex feature.frame ∧
    (t.afterSet feature geometry).1.begin ≤ t.begin ∧
    (t.afterSet feature geometry).1.begin ≤ (feature.frame : WithTop Nat) ∧
    t.«end» ≤ (t.afterSet feature geometry).1.«end» ∧
    (feature.frame : WithTop Nat) ≤ (t.afterSet feature geometry).1.«end» := by
  have hbe3 : (t.afterSetCore feature geometry).begin ≤ (t.afterSetCore feature geometry).«end» :=
    hbe
  have h4f := maybeExpandBounds_features (t.afterSetCore feature geometry) feature.frame
  have h4i := maybeExpandBounds_index (t.afterSetCore feature geometry) feature.frame
  have h4b := maybeExpandBounds_bounds (t.afterSetCore feature geometry) feature.frame hbe3
  have hc : ¬((t.afterSetCore feature geometry).maybeExpandBounds feature.frame).1.featureIndex.length = 1 := by
    rw [h4i, afterSetCore_index]
    exact hlen
  simp only [Track.afterSet]
  rw [if_neg hc]
  refine ⟨?_, ?_, ?_, ?_, ?_, ?_⟩
  · intro j
    rw [(notify_proj _ _).1, h4f, afterSetCore_features]
    by_cases hj : j = feature.frame
    · subst hj
      rw [sparseGet_sparseSet_self, if_pos rfl]
    · rw [sparseGet_sparseSet_ne _ _ _ hj, sparseGet_sparseSet_ne _ _ _ hj, if_neg hj]
  · rw [(notify_proj _ _).2.1, h4i, afterSetCore_index]
  · exact le_trans (le_of_eq (notify_proj _ _).2.2.1) h4b.1
  · exact le_trans (le_of_eq (notify_proj _ _).2.2.1) h4b.2.1
  · exact le_trans h4b.2.2.1 (le_of_eq (notify_proj _ _).2.2.2.symm)
  · exact le_trans h4b.2.2.2 (le_of_eq (notify_proj _ _).2.2.2.symm)

theorem setFeature_ok_effect {t : Track} {feature : Feature} {geometry : List GeoFeature}
    {t' : Track} {sf : Feature} {ev : List Event}
    (hlen : (listInsert t.featureIndex feature.frame).length ≠ 1)
    (hbe : t.begin ≤ t.«end»)
    (h : t.setFeature feature geometry = .ok (t', sf, ev)) :
    (∀ j, sparseGet t'.features j =
      if j = feature.frame then some sf else sparseGet t.features j) ∧
    t'.featureIndex = listInsert t.featureIndex feature.frame ∧
    t'.begin ≤ t.begin ∧ t'.begin ≤ (feature.frame : WithTop Nat) ∧
    t.«end» ≤ t'.«end» ∧ (feature.frame : WithTop Nat) ≤ t'.«end» := by
  have hk : truthy (t.mergedOf feature).keyframe = true := by
    cases hkc : truthy (t.mergedOf feature).keyframe with
    | true => rfl
    | false =>
      rw [setFeature_eq_error t feature geometry hkc] at h
      exact Except.noConfusion h
  rw [setFeature_eq_ok t feature geometry hk] at h
  have h' : (t.afterSet feature geometry).1 = t' ∧
      t.storedOf feature geometry = sf ∧ (t.afterSet feature geometry).2 = ev := by
    simpa using h
  obtain ⟨h1, h2, h3⟩ := h'
  subst h1
  subst h2
  exact afterSet_effect t feature geometry hlen hbe

theorem exactSome_nonempty {u : Track} {f : Nat} (h : u.ExactSome f)
    (hC : u.featureIndex = presentIndices u.features) : u.featureIndex ≠ [] := by
  intro hnil
  obtain ⟨x, l, r, hexf⟩ := h
  have hcells : ∀ i, sparseGet u.features i = none := by
    intro i
    cases hs : sparseGet u.features i with
    | none => rfl
    | some c =>
      have hm : i ∈ presentIndices u.features := mem_presentIndices.mpr (by simp [hs])
      rw [← hC, hnil] at hm
      simp at hm
  simp only [Track.getFeature] at hexf
  rw [hcells f] at hexf
  split at hexf
  · rename_i heq
    exact Option.noConfusion heq
  · split at hexf
    · split at hexf <;> simp at hexf
    · rw [hnil] at hexf
      have hge : getSurroundingElements ([] : List Nat) (binarySearch [] f) = none := rfl
      rw [hge] at hexf
      simp at hexf

theorem mergeInv_setFeature {t0 u : Track} {f : Nat} (hinv : MergeInv t0 f u)
    {gf : Feature} {geo : List GeoFeature}
    (hnull : ∃ lw rw0, u.getFeature gf.frame = .ok (none, lw, rw0))
    {u' : Track} {sf : Feature} {ev : List Event}
    (h : u.setFeature gf geo = .ok (u', sf, ev)) :
    MergeInv t0 f u' := by
  obtain ⟨hA, hE, hC, hD, hB⟩ := hinv
  obtain ⟨lw, rw0, hnl⟩ := hnull
  have hgnone : sparseGet u.features gf.frame = none := by
    cases hsg : sparseGet u.features gf.frame with
    | none => rfl
    | some c =>
      simp only [Track.getFeature] at hnl
      rw [hsg] at hnl
      simp at hnl
  obtain ⟨xf, lf, uf, hexf⟩ := hB
  have hgfne : gf.frame ≠ f := by
    intro he
    rw [he, hexf] at hnl
    simp at hnl
  have hidxsorted : u.featureIndex.Pairwise (· < ·) := by
    rw [hC]
    exact presentIndices_pairwise _
  have hgnotmem : gf.frame ∉ u.featureIndex := by
    rw [hC, mem_presentIndices]
    simp [hgnone]
  have hne : u.featureIndex ≠ [] := exactSome_nonempty ⟨xf, lf, uf, hexf⟩ hC
  obtain ⟨p0, hp0⟩ := List.exists_mem_of_ne_nil _ hne
  have hbe : u.begin ≤ u.«end» := le_trans (hD p0 hp0).1 (hD p0 hp0).2
  have hlen := listInsert_length_ne_one hne hgnotmem
  obtain ⟨hfeat, hidx, hb1, hb2, he1, he2⟩ := setFeature_ok_effect hlen hbe h
  have hA' : ∀ j x, sparseGet t0.features j = some x → sparseGet u'.features j = some x := by
    intro j x hj
    have huj := hA j x hj
    have hjg : j ≠ gf.frame := by
      intro he
      rw [he, hgnone] at huj
      exact Option.noConfusion huj
    rw [hfeat j, if_neg hjg]
    exact huj
  have hE' : sparseGet u'.features f = sparseGet t0.features f := by
    rw [hfeat f, if_neg (fun he => hgfne he.symm), hE]
  have hC' : u'.featureIndex = presentIndices u'.features := by
    rw [hidx, hC, ← presentIndices_sparseSet_some u.features gf.frame sf]
    apply presentIndices_ext
    intro k
    rw [hfeat k]
    by_cases hk : k = gf.frame
    · subst hk
      rw [sparseGet_sparseSet_self, if_pos rfl]
    · rw [sparseGet_sparseSet_ne _ _ _ hk, if_neg hk]
  have hD' : ∀ x ∈ u'.featureIndex,
      u'.begin ≤ (x : WithTop Nat) ∧ (x : WithTop Nat) ≤ u'.«end» := by
    intro x hx
    rw [hidx] at hx
    rcases mem_listInsert.mp hx with rfl | hxm
    · exact ⟨hb2, he2⟩
    · obtain ⟨hxb, hxe⟩ := hD x hxm
      exact ⟨le_trans hb1 hxb, le_trans hxe he1⟩
  refine ⟨hA', hE', hC', hD', ?_⟩
  cases hsf : sparseGet u.features f with
  | some xc =>
    have hf' : sparseGet u'.features f = some xc := by
      rw [hfeat f, if_neg (fun he => hgfne he.symm)]
      exact hsf
    refine ⟨xc, some xc, some xc, ?_⟩
    simp only [Track.getFeature]
    rw [hf']
  | none =>
    simp only [Track.getFeature] at hexf
    rw [hsf] at hexf
    split at hexf
    · rename_i heq
      exact Option.noConfusion heq
    by_cases hrange : ((f : WithTop Nat) < u.begin ∨ (f : WithTop Nat) > u.«end»)
    · rw [if_pos hrange] at hexf
      split at hexf <;> simp at hexf
    · rw [if_neg hrange] at hexf
      push_neg at hrange
      obtain ⟨hfb, hfe⟩ := hrange
      split at hexf
      · rename_i i0 i1 hsur
        split at hexf
        · rename_i d0 d1 hd0 hd1
          cases hint : Track.interpolate f d0 d1 with
          | error e =>
            rw [hint] at hexf
            simp [Except.map] at hexf
          | ok o =>
            rw [hint] at hexf
            simp only [Except.map, Except.ok.injEq, Prod.mk.injEq] at hexf
            obtain ⟨ho, hlf, huf⟩ := hexf
            subst ho
            obtain ⟨⟨hi0mem, hi0lt, hi0max⟩, hi1mem, hi1le, hi1min⟩ :=
              (surrounding_eq_some_iff hidxsorted).mp hsur
            have hfnotmem : f ∉ u.featureIndex := by
              rw [hC, mem_presentIndices]
              simp [hsf]
            have hfi1 : f < i1 :=
              lt_of_le_of_ne hi1le (fun he => hfnotmem (he ▸ hi1mem))
            have htr : truthy d0.interpolate = true := by
              cases htr0 : truthy d0.interpolate with
              | true => rfl
              | false =>
                unfold Track.interpolate at hint
                rw [htr0] at hint
                simp at hint
            have hbnds : ∃ b0 b1, d0.bounds = some b0 ∧ d1.bounds = some b1 := by
              cases hb0 : d0.bounds with
              | none =>
                unfold Track.interpolate at hint
                rw [htr] at hint
                simp only [Bool.true_eq_false, if_false] at hint
                rw [hb0] at hint
                simp at hint
              | some b0 =>
                cases hb1 : d1.bounds with
                | none =>
                  unfold Track.interpolate at hint
                  rw [htr] at hint
                  simp only [Bool.true_eq_false, if_false] at hint
                  rw [hb0, hb1] at hint
                  simp at hint
                | some b1 => exact ⟨b0, b1, rfl, rfl⟩
            have hgne0 : gf.frame ≠ i0 := by
              intro he
              rw [he, hd0] at hgnone
              exact Option.noConfusion hgnone
            have hgne1 : gf.frame ≠ i1 := by
              intro he
              rw [he, hd1] at hgnone
              exact Option.noConfusion hgnone
            have gout : gf.frame < i0 ∨ i1 < gf.frame := by
              by_contra hcon
              push_neg at hcon
              obtain ⟨hgi0, hgi1⟩ := hcon
              have hgi0' : i0 < gf.frame := lt_of_le_of_ne hgi0 (Ne.symm hgne0)
              have hgi1' : gf.frame < i1 := lt_of_le_of_ne hgi1 hgne1
              have hsurg : getSurroundingElements u.featureIndex
                  (binarySearch u.featureIndex gf.frame) = some (i0, i1) := by
                apply (surrounding_eq_some_iff hidxsorted).mpr
                refine ⟨⟨hi0mem, hgi0', ?_⟩, hi1mem, le_of_lt hgi1', ?_⟩
                · intro x hx hxg
                  by_cases hxf : x < f
                  · exact hi0max x hx hxf
                  · push_neg at hxf
                    have := hi1min x hx hxf
                    omega
                · intro x hx hgx
                  by_cases hxf : f ≤ x
                  · exact hi1min x hx hxf
                  · push_neg at hxf
                    have := hi0max x hx (by omega)
                    omega
              have hrg1 : ¬((gf.frame : WithTop Nat) < u.begin) := by
                rw [not_lt]
                exact le_trans (hD i0 hi0mem).1 (WithTop.coe_le_coe.mpr hgi0)
              have hrg2 : ¬((gf.frame : WithTop Nat) > u.«end») := by
                rw [not_lt]
                exact le_trans (WithTop.coe_le_coe.mpr hgi1) (hD i1 hi1mem).2
              obtain ⟨b0, b1, hb0, hb1⟩ := hbnds
              simp only [Track.getFeature, hgnone, hrg1, hrg2, or_self, if_false,
                hsurg, hd0, hd1, Track.interpolate, htr, Bool.true_eq_false,
                hb0, hb1, Except.map] at hnl
              simp at hnl
            have hsort' : (listInsert u.featureIndex gf.frame).Pairwise (· < ·) :=
              listInsert_pairwise hidxsorted _
            have hsur' : getSurroundingElements u'.featureIndex
                (binarySearch u'.featureIndex f) = some (i0, i1) := by
              rw [hidx]
              apply (surrounding_eq_some_iff hsort').mpr
              refine ⟨⟨mem_listInsert.mpr (Or.inr hi0mem), hi0lt, ?_⟩,
                      mem_listInsert.mpr (Or.inr hi1mem), hi1le, ?_⟩
              · intro x hx hxf
                rcases mem_listInsert.mp hx with rfl | hxm
                · rcases gout with hlt | hgt
                  · omega
                  · omega
                · exact hi0max x hxm hxf
              · intro x hx hfx
                rcases mem_listInsert.mp hx with rfl | hxm
                · rcases gout with hlt | hgt
                  · omega
                  · omega
                · exact hi1min x hxm hfx
            have hd0' : sparseGet u'.features i0 = some d0 := by
              rw [hfeat i0, if_neg (fun he => hgne0 he.symm)]
              exact hd0
            have hd1' : sparseGet u'.features i1 = some d1 := by
              rw [hfeat i1, if_neg (fun he => hgne1 he.symm)]
              exact hd1
            have hsf' : sparseGet u'.features f = none := by
              rw [hfeat f, if_neg (fun he => hgfne he.symm)]
              exact hsf
            have hr1' : ¬((f : WithTop Nat) < u'.begin) := by
              rw [not_lt]
              exact le_trans hb1 hfb
            have hr2' : ¬((f : WithTop Nat) > u'.«end») := by
              rw [not_lt]
              exact le_trans hfe he1
            refine ⟨xf, some d0, some d1, ?_⟩
            simp only [Track.getFeature, hsf', hr1', hr2', or_self, if_false,
              hsur', hd0', hd1', hint, Except.map]
        · exact Except.noConfusion hexf
      · rename_i hsur
        split at hexf <;> simp at hexf

theorem mergeInv_mergeOne {t0 u other : Track} {f : Nat} (hinv : MergeInv t0 f u)
    {u' : Track} {ev : List Event} (h : u.mergeOne other = .ok (u', ev)) :
    MergeInv t0 f u' := by
  simp only [Track.mergeOne] at h
  split at h
  · exact Except.noConfusion h
  · rename_i s2 hfm
    injection h with hh
    have hs2 : MergeInv t0 f s2.1 := by
      apply foldlM_except_inv (fun (acc : Track × List Event) => MergeInv t0 f acc.1)
        _ _ _ _ ?_ hfm ?_
      · intro b a ha hb b' hs
        cases a with
        | none =>
          simp only at hs
          injection hs with hh2
          rw [← hh2]
          exact hb
        | some fi =>
          simp only at hs
          split at hs
          · exact Except.noConfusion hs
          · injection hs with hh2
            rw [← hh2]
            exact hb
          · rename_i l r hgfr
            split at hs
            · exact Except.noConfusion hs
            · rename_i r2 hsf
              obtain ⟨u2, sf2, ev2⟩ := r2
              injection hs with hh2
              rw [← hh2]
              exact mergeInv_setFeature hb ⟨l, r, hgfr⟩ hsf
      · apply foldl_inv (fun (acc : Track × List Event) => MergeInv t0 f acc.1)
        · intro b a ha hb
          split
          · exact mergeInv_congr hb (setType_proj _ _ _ _).1 (setType_proj _ _ _ _).2.1
              (setType_proj _ _ _ _).2.2.1 (setType_proj _ _ _ _).2.2.2
          · split
            · exact mergeInv_congr hb (setType_proj _ _ _ _).1 (setType_proj _ _ _ _).2.1
                (setType_proj _ _ _ _).2.2.1 (setType_proj _ _ _ _).2.2.2
            · exact hb
        · exact hinv
    have hh2 : _ = u' := congrArg Prod.fst hh
    rw [← hh2]
    apply foldl_inv (fun (acc : Track × List Event) => MergeInv t0 f acc.1)
    · intro b a ha hb
      split
      all_goals first
        | exact hb
        | exact mergeInv_congr hb (setAttribute_proj _ _ _).1 (setAttribute_proj _ _ _).2.1
            (setAttribute_proj _ _ _).2.2.1 (setAttribute_proj _ _ _).2.2.2
    · exact hs2

theorem mergeInv_merge {t0 : Track} {f : Nat} {others : List Track}
    {t' : Track} {ev : List Event} (hinv : MergeInv t0 f t0)
    (h : t0.merge others = .ok (t', ev)) : MergeInv t0 f t' := by
  unfold Track.merge at h
  have := foldlM_except_inv (fun (acc : Track × List Event) => MergeInv t0 f acc.1)
    _ _ _ _ ?_ h hinv
  · exact this
  · intro b a ha hb b' hs
    cases hmo : b.1.mergeOne a with
    | error e =>
      rw [hmo] at hs
      simp [Except.map] at hs
    | ok r =>
      rw [hmo] at hs
      simp only [Except.map, Except.ok.injEq] at hs
      rw [← hs]
      exact mergeInv_mergeOne hb hmo

/-- C7 (counterexample): the adoption clause fails against the pre-merge
state.  Before the merge, `mergeBlockA` has no feature at all at frame 8 (its
exact element is null: frame 8 sits between the non-interpolating keyframe 6
and keyframe 10), and the incoming `mergeBlockB` holds a stored feature at
frame 8; the merge succeeds and yet the result holds no feature at frame 8,
because the earlier adoption of frame 7 (an interpolating keyframe) makes
frame 8 interpolatable in the evolving track, so its adoption is skipped. -/
theorem c7_counterexample :
    (∃ l u, mergeBlockA.getFeature 8 = .ok (none, l, u)) ∧
    (sparseGet mergeBlockB.features 8).isSome = true ∧
    ∃ t' ev, mergeBlockA.merge [mergeBlockB] = .ok (t', ev) ∧
      sparseGet t'.features 8 = none ∧ t'.featureIndex = [4, 6, 7, 10] := by
  refine ⟨⟨some (mkKeyframe 6 ⟨0,0,2,2⟩ none), some (mkKeyframe 10 ⟨0,0,3,3⟩ none), rfl⟩,
    rfl, ?_⟩
  exact ⟨_, _, rfl, rfl, rfl⟩

/-- C7 (amended): the self-wins half of the claim holds generally: on any
track whose keyframe index mirrors its sparse feature store and whose
begin/end cover the index, a successful `merge` leaves the feature cell of
every frame with a non-null exact element (stored or interpolated) unchanged,
and that frame still has a non-null exact element afterwards.  The adoption
half holds only against the evolving track (see the counterexample); in the
concrete example where A and B share frame 5 and only B has frame 7, A keeps
its frame-5 feature and adopts B's frame-7 feature (with rounded bounds and
keyframe forced true). -/
theorem c7_amended :
    (∀ (t : Track) (others : List Track) (t' : Track) (ev : List Event) (f : Nat),
        t.featureIndex = presentIndices t.features →
        (∀ x ∈ t.featureIndex,
          t.begin ≤ (x : WithTop Nat) ∧ (x : WithTop Nat) ≤ t.«end») →
        t.merge others = .ok (t', ev) →
        t.ExactSome f →
        sparseGet t'.features f = sparseGet t.features f ∧ t'.ExactSome f) ∧
    (∃ t' ev, mergeSelf.merge [mergeOther] = .ok (t', ev) ∧
      sparseGet t'.features 5 = some (mkKeyframe 5 ⟨1,1,2,2⟩ none) ∧
      ∃ g, sparseGet t'.features 7 = some g ∧ g.frame = 7 ∧
        g.bounds = some (roundBounds ⟨7,7,8,8⟩) ∧ g.keyframe = some true) := by
  constructor
  · intro t others t' ev f hC hD hm hex
    have hinv0 : MergeInv t f t := ⟨fun j x hj => hj, rfl, hC, hD, hex⟩
    have hinv' := mergeInv_merge hinv0 hm
    exact ⟨hinv'.2.1, hinv'.2.2.2.2⟩
  · exact ⟨_, _, rfl, rfl, _, rfl, rfl, rfl, rfl⟩

/-- C7 (witness): the preservation law instantiated on the two-track example
at the shared frame 5: the hypotheses hold for the fixture, the merge
succeeds, and A's frame-5 cell is unchanged with a non-null exact element. -/
theorem c7_witness :
    mergeSelf.ExactSome 5 ∧
    (∃ t2 ev2, mergeSelf.merge [mergeOther] = .ok (t2, ev2) ∧
      sparseGet t2.features 5 = sparseGet mergeSelf.features 5 ∧ t2.ExactSome 5) := by
  have hidx : mergeSelf.featureIndex = presentIndices mergeSelf.features := by decide
  have hbnd : ∀ x ∈ mergeSelf.featureIndex,
      mergeSelf.begin ≤ (x : WithTop Nat) ∧ (x : WithTop Nat) ≤ mergeSelf.«end» := by decide
  have hex : mergeSelf.ExactSome 5 :=
    ⟨mkKeyframe 5 ⟨1,1,2,2⟩ none, some (mkKeyframe 5 ⟨1,1,2,2⟩ none),
      some (mkKeyframe 5 ⟨1,1,2,2⟩ none), rfl⟩
  obtain ⟨t2, ev2, hm⟩ : ∃ t2 ev2, mergeSelf.merge [mergeOther] = .ok (t2, ev2) :=
    ⟨_, _, rfl⟩
  obtain ⟨hpres, hex2⟩ := c7_amended.1 mergeSelf [mergeOther] t2 ev2 5 hidx hbnd hm hex
  exact ⟨hex, t2, ev2, hm, hpres, hex2⟩
